import Mathlib

/-!
Verification of the rename logic of `modern-fullstack-cli` (`src/index.js`).

The development shallowly embeds the `renameProject` routine and its helpers.
Strings are modelled as `List Char` (`Str`); JavaScript objects that map
dependency names to version strings are modelled as ordered association
lists (`Obj`), matching JS property-order semantics: assignment to an
existing key updates it in place, assignment to a fresh key appends it,
and `delete` removes the property.  Files on disk are modelled by the `FS`
structure; a manifest file is either unparsable (`JFile.bad`, on which
`fs.readJson` throws) or a parsed record (`JFile.parsed`).
-/

namespace ModernCli

abbrev Str := List Char

/-- Character list of a string literal, used to write the model's constants. -/
def str (s : String) : Str := s.data

/-- JS `s.includes(pat)`: `pat` occurs as a contiguous substring of `s`. -/
def hasSub (pat : Str) : Str → Bool
  | [] => pat.isPrefixOf []
  | c :: rest => pat.isPrefixOf (c :: rest) || hasSub pat rest

/-- JS `s.replace(pat, rep)` with a string pattern: replace the first
occurrence of `pat` (if any) by `rep`.  On the empty string only an empty
pattern matches (at position 0). -/
def replFirst (pat rep : Str) : Str → Str
  | [] => if pat.isEmpty then rep else []
  | c :: rest =>
    if pat.isPrefixOf (c :: rest) then rep ++ List.drop pat.length (c :: rest)
    else c :: replFirst pat rep rest

/-- Fuelled worker for `replAll`; the fuel bounds the number of characters
still to be scanned, so `fuel = s.length` always suffices. -/
def replAllFuel (pat rep : Str) : Nat → Str → Str
  | 0, s => s
  | _ + 1, [] => []
  | fuel + 1, c :: rest =>
    if pat ≠ [] ∧ pat.isPrefixOf (c :: rest) then
      rep ++ replAllFuel pat rep fuel (List.drop (pat.length - 1) rest)
    else c :: replAllFuel pat rep fuel rest

/-- JS `s.split(pat).join(rep)` and `s.replace(/pat/g, rep)` for a literal
nonempty pattern: replace every (left-to-right, non-overlapping)
occurrence of `pat` by `rep`. -/
def replAll (pat rep s : Str) : Str := replAllFuel pat rep s.length s

/-- JS `s.split(sep)[0]`: the characters of `s` before its first `sep`. -/
def takeBefore (sep : Char) : Str → Str
  | [] => []
  | c :: rest => if c = sep then [] else c :: takeBefore sep rest

/-- JS `s.split(sep)` for a single-character separator. -/
def splitOnChar (sep : Char) : Str → List Str
  | [] => [[]]
  | c :: rest =>
    if c = sep then [] :: splitOnChar sep rest
    else
      match splitOnChar sep rest with
      | [] => [[c]]
      | g :: gs => (c :: g) :: gs

/-- JS `w.charAt(0).toUpperCase() + w.slice(1)`. -/
def capitalizeWord : Str → Str
  | [] => []
  | c :: rest => c.toUpper :: rest

/-- The title-case display form of a new name (`index.js` lines 314-317):
split on hyphens, capitalize each word, join with spaces. -/
def titleCase (n : Str) : Str :=
  List.intercalate (str " ") ((splitOnChar '-' n).map capitalizeWord)

/-! JS object semantics for dependency maps. -/

/-- A JS object mapping dependency names to version strings, in property order. -/
abbrev Obj := List (Str × Str)

/-- JS `Object.keys o`. -/
def objKeys (o : Obj) : List Str := o.map Prod.fst

/-- JS property read `o[k]`. -/
def objGet (k : Str) : Obj → Option Str
  | [] => none
  | (k', v) :: rest => if k' = k then some v else objGet k rest

/-- JS property write `o[k] = v`: update in place if present, else append. -/
def objSet (k v : Str) : Obj → Obj
  | [] => [(k, v)]
  | (k', v') :: rest => if k' = k then (k', v) :: rest else (k', v') :: objSet k v rest

/-- JS `delete o[k]`. -/
def objDelete (k : Str) : Obj → Obj
  | [] => []
  | (k', v') :: rest => if k' = k then rest else (k', v') :: objDelete k rest

/-- The dependency-rekeying loop of `renameProject` (`index.js` lines 257-263
and 267-273): iterate over a snapshot of the keys; for each key starting
with the old scope token, assign its value to the rekeyed name and then
delete the original property.  If the looked-up value is missing the key
was already removed, so only the delete takes effect (unreachable for
JSON objects, whose keys are distinct). -/
def rekeyLoop (oldTok newTok : Str) : List Str → Obj → Obj
  | [], o => o
  | k :: ks, o =>
    if oldTok.isPrefixOf k then
      let newDep := replFirst oldTok newTok k
      match objGet k o with
      | some v => rekeyLoop oldTok newTok ks (objDelete k (objSet newDep v o))
      | none => rekeyLoop oldTok newTok ks (objDelete k o)
    else rekeyLoop oldTok newTok ks o

/-- Rekey a whole dependency object, snapshotting `Object.keys` first as the
source does. -/
def rekeyObj (oldTok newTok : Str) (o : Obj) : Obj :=
  rekeyLoop oldTok newTok (objKeys o) o

/-! The data model: manifests, files and the project tree. -/

/-- The fields of a package manifest that `renameProject` reads or writes.
`name` is optional because a JSON object need not carry it; the source
accesses it unguarded. -/
structure Manifest where
  name : Option Str
  dependencies : Option Obj
  devDependencies : Option Obj
deriving DecidableEq

/-- A manifest file on disk: either text that `fs.readJson` fails to parse
(reading it throws), or a parsed manifest. -/
inductive JFile where
  | bad
  | parsed (m : Manifest)
deriving DecidableEq

/-- A file tree under a package's `src/` directory. -/
inductive FTree where
  | file (name : Str) (content : Str)
  | dir (name : Str) (children : List FTree)

mutual
/-- Boolean equality on file trees (deriving cannot handle the nesting). -/
def ftreeBeq : FTree → FTree → Bool
  | .file n c, .file n' c' => decide (n = n') && decide (c = c')
  | .dir n ch, .dir n' ch' => decide (n = n') && ftreeBeqList ch ch'
  | .file _ _, .dir _ _ => false
  | .dir _ _, .file _ _ => false

/-- Boolean equality on lists of file trees. -/
def ftreeBeqList : List FTree → List FTree → Bool
  | [], [] => true
  | t :: ts, u :: us => ftreeBeq t u && ftreeBeqList ts us
  | [], _ :: _ => false
  | _ :: _, [] => false
end

mutual
theorem ftreeBeq_iff : ∀ a b, ftreeBeq a b = true ↔ a = b
  | .file n c, .file n' c' => by simp [ftreeBeq, FTree.file.injEq]
  | .dir n ch, .dir n' ch' => by simp [ftreeBeq, FTree.dir.injEq, ftreeBeqList_iff ch ch']
  | .file _ _, .dir _ _ => by simp [ftreeBeq]
  | .dir _ _, .file _ _ => by simp [ftreeBeq]

theorem ftreeBeqList_iff : ∀ a b, ftreeBeqList a b = true ↔ a = b
  | [], [] => by simp [ftreeBeqList]
  | t :: ts, u :: us => by simp [ftreeBeqList, ftreeBeq_iff t u, ftreeBeqList_iff ts us]
  | [], _ :: _ => by simp [ftreeBeqList]
  | _ :: _, [] => by simp [ftreeBeqList]
end

instance : DecidableEq FTree := fun a b => decidable_of_iff _ (ftreeBeq_iff a b)

/-- A directory entry of `packages/` that is itself a directory: its name, an
optional manifest file, and the optional contents of its `src/` directory. -/
structure PkgDir where
  dirName : Str
  manifest : Option JFile
  src : Option (List FTree)
deriving DecidableEq

/-- An entry of the `packages/` directory listing; `plainFile` entries are
skipped by both the scope scan (no `package.json` below a file) and the
per-package pass (`stat(...).isDirectory()` is false). -/
inductive PkgEntry where
  | plainFile (name : Str)
  | pkgdir (d : PkgDir)
deriving DecidableEq

/-- The parts of the project tree that `renameProject` touches.
`packages = none` models an absent `packages/` directory; `readme` and
`frontendHtml` are the two fixed extra files of lines 306-309. -/
structure FS where
  rootPkg : Option JFile
  packages : Option (List PkgEntry)
  readme : Option Str
  frontendHtml : Option Str
deriving DecidableEq

/-- Outcome of a step that can throw a JS exception. -/
inductive ExcRes (α : Type) where
  | thrown
  | ok (a : α)
deriving DecidableEq

/-- The manifest file visible below a `packages/` entry, if any. -/
def pkgManifestOf : PkgEntry → Option JFile
  | .plainFile _ => none
  | .pkgdir d => d.manifest

/-! The recursive file walk (`getFiles`, `index.js` lines 325-334) and the
source-file rewrite of lines 278-300. -/

mutual
/-- `getFiles` flattened to (path, content) pairs: every regular file below
the tree, with its full path. -/
def getFiles (pfx : Str) : FTree → List (Str × Str)
  | .file nm c => [(pfx ++ str "/" ++ nm, c)]
  | .dir nm ch => getFilesList (pfx ++ str "/" ++ nm) ch

/-- `getFiles` over a directory listing, concatenating the per-entry results
in listing order. -/
def getFilesList (pfx : Str) : List FTree → List (Str × Str)
  | [] => []
  | t :: ts => getFiles pfx t ++ getFilesList pfx ts
end

/-- The extension test `/\.(ts|tsx|js|jsx)$/.test(file)` of line 283. -/
def srcExtOk (p : Str) : Bool :=
  (str ".ts").isSuffixOf p || (str ".tsx").isSuffixOf p ||
    (str ".js").isSuffixOf p || (str ".jsx").isSuffixOf p

/-- The literal boilerplate identifier of lines 291-293 and 319. -/
def mfb : Str := str "modern-fullstack-boilerplate"

/-- Lines 284-297: replace the old scope token everywhere if present, then
(on the updated text) replace the boilerplate identifier everywhere if
present. -/
def processSrcContent (oldTok newTok newName c : Str) : Str :=
  let c1 := if hasSub oldTok c then replAll oldTok newTok c else c
  if hasSub mfb c1 then replAll mfb newName c1 else c1

/-- Whether lines 284-297 issue any `writeFile` for a file with content `c`. -/
def srcWritten (oldTok newTok c : Str) : Bool :=
  hasSub oldTok c || hasSub mfb (if hasSub oldTok c then replAll oldTok newTok c else c)

/-- Per-file action of the source rewrite: only files passing the extension
test are transformed. -/
def rewriteSrcFile (oldTok newTok newName p c : Str) : Str :=
  if srcExtOk p then processSrcContent oldTok newTok newName c else c

mutual
/-- The source rewrite applied below one tree node, tracking the path. -/
def rewriteTree (oldTok newTok newName pfx : Str) : FTree → FTree
  | .file nm c => .file nm (rewriteSrcFile oldTok newTok newName (pfx ++ str "/" ++ nm) c)
  | .dir nm ch => .dir nm (rewriteTrees oldTok newTok newName (pfx ++ str "/" ++ nm) ch)

/-- The source rewrite applied to a directory listing. -/
def rewriteTrees (oldTok newTok newName pfx : Str) : List FTree → List FTree
  | [] => []
  | t :: ts =>
    rewriteTree oldTok newTok newName pfx t :: rewriteTrees oldTok newTok newName pfx ts
end

/-! The pieces of `renameProject` (`index.js` lines 203-323). -/

/-- Lines 250-253: rewrite the manifest `name` when it starts with the old
scope token, using `String.prototype.replace` (first occurrence). -/
def renameNameField (oldTok newTok nm : Str) : Str :=
  if oldTok.isPrefixOf nm then replFirst oldTok newTok nm else nm

/-- Lines 244-301, per entry of `packages/`: plain files and directories
without a manifest are skipped; an unparsable manifest throws; a manifest
without a `name` field throws at the unguarded `data.name.startsWith`;
otherwise the name, the dependency maps and the `src/` tree are rewritten. -/
def processEntry (oldTok newTok newName : Str) : PkgEntry → ExcRes PkgEntry
  | .plainFile n => .ok (.plainFile n)
  | .pkgdir d =>
    match d.manifest with
    | none => .ok (.pkgdir d)
    | some .bad => .thrown
    | some (.parsed m) =>
      match m.name with
      | none => .thrown
      | some nm =>
        let m' : Manifest :=
          { name := some (renameNameField oldTok newTok nm)
            dependencies := m.dependencies.map (rekeyObj oldTok newTok)
            devDependencies := m.devDependencies.map (rekeyObj oldTok newTok) }
        let src' := (d.src).map (rewriteTrees oldTok newTok newName (d.dirName ++ str "/src"))
        .ok (.pkgdir { d with manifest := some (.parsed m'), src := src' })

/-- Lines 212-222, the scope-detection loop: scan the entries of `packages/`
in listing order; entries without a manifest file are passed over; a
manifest that fails to parse or lacks a `name` throws; the first name
starting with `@` and containing `/` yields the scope (the part of the
name before the first `/`) and stops the scan. -/
def detectLoop : List PkgEntry → ExcRes (Option Str)
  | [] => .ok none
  | e :: rest =>
    match pkgManifestOf e with
    | none => detectLoop rest
    | some .bad => .thrown
    | some (.parsed m) =>
      match m.name with
      | none => .thrown
      | some nm =>
        if (str "@").isPrefixOf nm && hasSub (str "/") nm then .ok (some (takeBefore '/' nm))
        else detectLoop rest

/-- An entry the scope scan passes over without throwing and without
matching: no manifest file, or a parsed manifest with an unscoped name. -/
def detSkip : PkgEntry → Bool
  | e =>
    match pkgManifestOf e with
    | none => true
    | some .bad => false
    | some (.parsed m) =>
      match m.name with
      | none => false
      | some nm => !((str "@").isPrefixOf nm && hasSub (str "/") nm)

/-- Lines 206-223: the detected full scope token, `@repo` when `packages/`
is missing or no sub-package exposes a scoped name. -/
def detectScope : Option (List PkgEntry) → ExcRes Str
  | none => .ok (str "@repo")
  | some pkgs =>
    match detectLoop pkgs with
    | .thrown => .thrown
    | .ok none => .ok (str "@repo")
    | .ok (some s) => .ok s

/-- Lines 229-235: if the root manifest exists, set its `name` to the new
name unconditionally; an unparsable root manifest throws. -/
def rootStep (root : Option JFile) (newName : Str) : ExcRes (Option JFile) :=
  match root with
  | none => .ok none
  | some .bad => .thrown
  | some (.parsed m) => .ok (some (.parsed { m with name := some newName }))

/-- Lines 240-302: process the `packages/` entries in order.  A thrown
exception aborts the loop, leaving the failing entry and all later
entries untouched; the boolean records whether a throw happened. -/
def updatePackages (oldTok newTok newName : Str) : List PkgEntry → List PkgEntry × Bool
  | [] => ([], false)
  | e :: rest =>
    match processEntry oldTok newTok newName e with
    | .thrown => (e :: rest, true)
    | .ok e' =>
      let r := updatePackages oldTok newTok newName rest
      (e' :: r.1, r.2)

/-- Lines 311-321, per extra file: replace the display phrase by the
title-case form of the new name, then the boilerplate identifier by the
new name, and write back unconditionally. -/
def docRewrite (newName c : Str) : Str :=
  replAll mfb newName (replAll (str "Modern Fullstack Boilerplate") (titleCase newName) c)

/-- Lines 305-322: rewrite `README.md` and `packages/frontend/index.html`
when present. -/
def extraStep (newName : Str) (fs : FS) : FS :=
  { fs with
    readme := fs.readme.map (docRewrite newName)
    frontendHtml := fs.frontendHtml.map (docRewrite newName) }

/-- The whole of `renameProject` (lines 203-323).  The returned boolean is
true when the routine threw; the returned tree holds everything written
before the throw (detection and a root parse failure precede all writes;
a throw in the package loop keeps the root update and the completed
packages; the extra files are only rewritten on a throw-free pass). -/
def renameProject (fs : FS) (newName : Str) : FS × Bool :=
  match detectScope fs.packages with
  | .thrown => (fs, true)
  | .ok scopeFull =>
    let oldTok := scopeFull ++ str "/"
    let newTok := str "@" ++ newName ++ str "/"
    match rootStep fs.rootPkg newName with
    | .thrown => (fs, true)
    | .ok root' =>
      match fs.packages with
      | none => (extraStep newName { fs with rootPkg := root' }, false)
      | some pkgs =>
        let r := updatePackages oldTok newTok newName pkgs
        if r.2 then ({ fs with rootPkg := root', packages := some r.1 }, true)
        else (extraStep newName { fs with rootPkg := root', packages := some r.1 }, false)

/-! The `rename` command action (`index.js` lines 146-198), reduced to the
sequence of rename invocations, success/failure reports, and the final
folder-relocation attempt. -/

/-- Observable steps of the `rename` command action. -/
inductive CmdEvent where
  | renameCall (newName : Str)
  | reportSuccess
  | reportFailure
  | relocateStep
deriving DecidableEq

/-- Lines 168-198: call `renameProject`, report success, call it again on the
(already renamed) tree, report success again, then attempt to relocate
the folder; any throw is caught and reported as a failure, ending the
command. -/
def renameCmdTrace (fs : FS) (newName : Str) : List CmdEvent :=
  let r1 := renameProject fs newName
  if r1.2 then [.renameCall newName, .reportFailure]
  else
    let r2 := renameProject r1.1 newName
    if r2.2 then [.renameCall newName, .reportSuccess, .renameCall newName, .reportFailure]
    else
      [.renameCall newName, .reportSuccess, .renameCall newName, .reportSuccess,
        .relocateStep]

/-! Small observers used to state properties and counterexamples. -/

/-- The dependencies object of the manifest of the first `packages/` entry. -/
def firstPkgDeps (fs : FS) : Option Obj :=
  match fs.packages with
  | some (.pkgdir d :: _) =>
    match d.manifest with
    | some (.parsed m) => m.dependencies
    | _ => none
  | _ => none

/-- The manifest name of the `packages/` entry at position `i`. -/
def pkgNameAt (fs : FS) (i : Nat) : Option Str :=
  match fs.packages with
  | some l =>
    match l.get? i with
    | some (.pkgdir d) =>
      match d.manifest with
      | some (.parsed m) => m.name
      | _ => none
    | _ => none
  | none => none

/-- No key of `o` starts with `tok`. -/
def objClean (tok : Str) (o : Option Obj) : Bool :=
  match o with
  | none => true
  | some l => l.all fun kv => !(tok.isPrefixOf kv.1)

/-- No dependency or devDependency key of the entry's manifest starts with
`tok`. -/
def depsCleanB (tok : Str) (e : PkgEntry) : Bool :=
  match pkgManifestOf e with
  | some (.parsed m) => objClean tok m.dependencies && objClean tok m.devDependencies
  | _ => true

/-- No regular file below the entry's `src/` tree contains the boilerplate
identifier. -/
def entryNoMfb (e : PkgEntry) : Bool :=
  match e with
  | .plainFile _ => true
  | .pkgdir d =>
    match d.src with
    | none => true
    | some ts =>
      (getFilesList (d.dirName ++ str "/src") ts).all fun pc => !(hasSub mfb pc.2)

/-- The dependencies object of the manifest of the `packages/` entry at `i`. -/
def pkgDepsAt (fs : FS) (i : Nat) : Option Obj :=
  match fs.packages with
  | some l =>
    match l.get? i with
    | some (.pkgdir d) =>
      match d.manifest with
      | some (.parsed m) => m.dependencies
      | _ => none
    | _ => none
  | none => none

/-- The devDependencies object of the manifest of the `packages/` entry at `i`. -/
def pkgDevDepsAt (fs : FS) (i : Nat) : Option Obj :=
  match fs.packages with
  | some l =>
    match l.get? i with
    | some (.pkgdir d) =>
      match d.manifest with
      | some (.parsed m) => m.devDependencies
      | _ => none
    | _ => none
  | none => none

/-- The root manifest does not exist or parses (so the root step cannot throw). -/
def rootParses (fs : FS) : Bool :=
  match fs.rootPkg with
  | some .bad => false
  | _ => true

/-- Neither documentation token occurs in `c`. -/
def docClean (c : Str) : Bool :=
  !(hasSub (str "Modern Fullstack Boilerplate") c) && !(hasSub mfb c)

/-- Both extra files are absent or free of the documentation tokens. -/
def fsDocClean (fs : FS) : Bool :=
  (match fs.readme with | none => true | some c => docClean c) &&
    (match fs.frontendHtml with | none => true | some c => docClean c)

/-- All `packages/` entries satisfy `p` (vacuously true when `packages/` is
absent). -/
def fsAllB (p : PkgEntry → Bool) (fs : FS) : Bool :=
  match fs.packages with
  | none => true
  | some l => l.all p

/-! Lemmas about the string primitives. -/

theorem isPrefixOf_append_self (l t : Str) : l.isPrefixOf (l ++ t) = true :=
  List.isPrefixOf_iff_prefix.mpr ⟨t, rfl⟩

theorem eq_append_of_isPrefixOf {pat s : Str} (h : pat.isPrefixOf s = true) :
    ∃ t, s = pat ++ t := by
  rcases List.isPrefixOf_iff_prefix.mp h with ⟨t, rfl⟩
  exact ⟨t, rfl⟩

theorem replFirst_append (pat rep t : Str) : replFirst pat rep (pat ++ t) = rep ++ t := by
  cases hpt : pat ++ t with
  | nil =>
    rcases List.append_eq_nil.mp hpt with ⟨rfl, rfl⟩
    simp [replFirst, List.isEmpty]
  | cons c rest =>
    rw [replFirst, if_pos (by rw [← hpt]; exact isPrefixOf_append_self pat t), ← hpt,
      List.drop_left]

theorem replFirst_self (pat : Str) : ∀ s, replFirst pat pat s = s
  | [] => by
    cases hp : pat with
    | nil => simp [replFirst, List.isEmpty]
    | cons c p' => simp [replFirst, List.isEmpty]
  | c :: rest => by
    rw [replFirst]
    by_cases h : pat.isPrefixOf (c :: rest) = true
    · rw [if_pos h]
      rcases eq_append_of_isPrefixOf h with ⟨t, ht⟩
      rw [ht, List.drop_left]
    · rw [if_neg h, replFirst_self pat rest]

theorem hasSub_cons_false {pat : Str} {c : Char} {rest : Str}
    (h : hasSub pat (c :: rest) = false) :
    pat.isPrefixOf (c :: rest) = false ∧ hasSub pat rest = false := by
  rw [hasSub, Bool.or_eq_false_iff] at h
  exact h

theorem replAllFuel_self (pat : Str) :
    ∀ (f : Nat) (s : Str), s.length ≤ f → replAllFuel pat pat f s = s
  | 0, s => fun _ => rfl
  | f + 1, [] => fun _ => rfl
  | f + 1, c :: rest => fun hf => by
    rw [replAllFuel]
    by_cases h : pat ≠ [] ∧ pat.isPrefixOf (c :: rest) = true
    · rw [if_pos h]
      rcases eq_append_of_isPrefixOf h.2 with ⟨t, ht⟩
      have hpat : pat.length ≥ 1 := by
        cases hp : pat with
        | nil => exact absurd hp h.1
        | cons a b => simp [hp]
      have hrest : rest = List.drop 1 pat ++ t := by
        have := congrArg (List.drop 1) ht
        simpa [List.drop_append_of_le_length (by omega : 1 ≤ pat.length)] using this
      have hdrop : List.drop (pat.length - 1) rest = t := by
        rw [hrest]
        have : pat.length - 1 = (List.drop 1 pat).length := by simp
        rw [this, List.drop_left]
      rw [hdrop, replAllFuel_self pat f t (by
        have := congrArg List.length ht
        simp at this hf ⊢
        omega)]
      exact ht.symm
    · rw [if_neg h, replAllFuel_self pat f rest (by simp at hf; omega)]

theorem replAll_self (pat s : Str) : replAll pat pat s = s :=
  replAllFuel_self pat s.length s (le_refl _)

theorem replAllFuel_of_not_hasSub (pat rep : Str) :
    ∀ (f : Nat) (s : Str), hasSub pat s = false → replAllFuel pat rep f s = s
  | 0, s => fun _ => rfl
  | f + 1, [] => fun _ => rfl
  | f + 1, c :: rest => fun h => by
    rcases hasSub_cons_false h with ⟨h1, h2⟩
    rw [replAllFuel, if_neg (by simp [h1]), replAllFuel_of_not_hasSub pat rep f rest h2]

theorem replAll_of_not_hasSub {pat s : Str} (rep : Str) (h : hasSub pat s = false) :
    replAll pat rep s = s :=
  replAllFuel_of_not_hasSub pat rep s.length s h

theorem hasSub_of_append (pat : Str) : ∀ (a b : Str), hasSub pat (a ++ pat ++ b) = true
  | [], b => by
    cases hpb : pat ++ b with
    | nil =>
      rcases List.append_eq_nil.mp hpb with ⟨rfl, rfl⟩
      simp [hasSub]
    | cons c rest =>
      rw [List.nil_append, hpb, hasSub, ← hpb, isPrefixOf_append_self, Bool.true_or]
  | c :: a', b => by
    rw [List.cons_append, List.cons_append, hasSub, hasSub_of_append pat a' b, Bool.or_true]

/-! Lemmas about JS-object operations. -/

theorem objKeys_append (a b : Obj) : objKeys (a ++ b) = objKeys a ++ objKeys b :=
  List.map_append _ a b

theorem objKeys_cons (kv : Str × Str) (o : Obj) : objKeys (kv :: o) = kv.1 :: objKeys o :=
  rfl

theorem not_mem_objKeys_cons {k : Str} {kv : Str × Str} {o : Obj}
    (h : k ∉ objKeys (kv :: o)) : kv.1 ≠ k ∧ k ∉ objKeys o := by
  rw [objKeys_cons, List.mem_cons] at h
  push_neg at h
  exact ⟨fun he => h.1 he.symm, h.2⟩

theorem objGet_append_right {k : Str} {pre : Obj} (o : Obj) (h : k ∉ objKeys pre) :
    objGet k (pre ++ o) = objGet k o := by
  induction pre with
  | nil => rfl
  | cons kv rest ih =>
    rcases not_mem_objKeys_cons h with ⟨h1, h2⟩
    rw [List.cons_append, objGet, if_neg h1, ih h2]

theorem objGet_cons_self (k v : Str) (o : Obj) : objGet k ((k, v) :: o) = some v := by
  rw [objGet, if_pos rfl]

theorem objSet_append_right {k : Str} {pre : Obj} (v : Str) (o : Obj)
    (h : k ∉ objKeys pre) : objSet k v (pre ++ o) = pre ++ objSet k v o := by
  induction pre with
  | nil => rfl
  | cons kv rest ih =>
    rcases not_mem_objKeys_cons h with ⟨h1, h2⟩
    rw [List.cons_append, objSet, if_neg h1, ih h2, List.cons_append]

theorem objSet_cons_self (k v v' : Str) (o : Obj) :
    objSet k v ((k, v') :: o) = (k, v) :: o := by
  rw [objSet, if_pos rfl]

theorem objSet_of_not_mem {k : Str} (v : Str) : ∀ (o : Obj), k ∉ objKeys o →
    objSet k v o = o ++ [(k, v)]
  | [], _ => rfl
  | kv :: rest, h => by
    rcases not_mem_objKeys_cons h with ⟨h1, h2⟩
    rw [objSet, if_neg h1, objSet_of_not_mem v rest h2, List.cons_append]

theorem objDelete_append_right {k : Str} {pre : Obj} (o : Obj) (h : k ∉ objKeys pre) :
    objDelete k (pre ++ o) = pre ++ objDelete k o := by
  induction pre with
  | nil => rfl
  | cons kv rest ih =>
    rcases not_mem_objKeys_cons h with ⟨h1, h2⟩
    rw [List.cons_append, objDelete, if_neg h1, ih h2, List.cons_append]

theorem objDelete_cons_self (k v : Str) (o : Obj) : objDelete k ((k, v) :: o) = o := by
  rw [objDelete, if_pos rfl]

/-! Lemmas about the dependency rekeying loop. -/

theorem rekeyLoop_no_match {oldTok newTok : Str} :
    ∀ {ks : List Str} (o : Obj), (∀ k ∈ ks, oldTok.isPrefixOf k = false) →
      rekeyLoop oldTok newTok ks o = o
  | [], o, _ => rfl
  | k :: ks, o, h => by
    rw [rekeyLoop, if_neg (by rw [h k (by simp)]; exact Bool.false_ne_true)]
    exact rekeyLoop_no_match o fun k' hk' => h k' (by simp [hk'])

theorem rekeyObj_no_match {oldTok newTok : Str} {o : Obj}
    (h : ∀ k ∈ objKeys o, oldTok.isPrefixOf k = false) : rekeyObj oldTok newTok o = o :=
  rekeyLoop_no_match o h

/-- When the old and new tokens coincide, each matching key is rewritten to
itself and then deleted: the loop removes every matching entry and leaves
the rest (here `pre` accumulates the already-scanned non-matching part of
the object). -/
theorem rekeyLoop_self_delete (tok : Str) :
    ∀ (o pre : Obj), (∀ k ∈ objKeys pre, tok.isPrefixOf k = false) →
      rekeyLoop tok tok (objKeys o) (pre ++ o) =
        pre ++ o.filter fun kv => !(tok.isPrefixOf kv.1)
  | [], pre, _ => by simp [objKeys, rekeyLoop]
  | (k, v) :: o', pre, hpre => by
    by_cases hmatch : List.isPrefixOf tok k = true
    · have hkpre : k ∉ objKeys pre := fun hm => by
        rw [hpre k hm] at hmatch; exact Bool.false_ne_true hmatch
      have hget : objGet k (pre ++ (k, v) :: o') = some v := by
        rw [objGet_append_right _ hkpre, objGet_cons_self]
      have hset : objSet (replFirst tok tok k) v (pre ++ (k, v) :: o') =
          pre ++ (k, v) :: o' := by
        rw [replFirst_self, objSet_append_right _ _ hkpre, objSet_cons_self]
      have hdel : objDelete k (pre ++ (k, v) :: o') = pre ++ o' := by
        rw [objDelete_append_right _ hkpre, objDelete_cons_self]
      show rekeyLoop tok tok (k :: objKeys o') (pre ++ (k, v) :: o') = _
      rw [rekeyLoop, if_pos hmatch]
      simp only [hget, hset, hdel]
      rw [rekeyLoop_self_delete tok o' pre hpre, List.filter_cons,
        if_neg (by rw [hmatch]; exact Bool.false_ne_true)]
    · have hfalse : List.isPrefixOf tok k = false := Bool.eq_false_iff.mpr hmatch
      show rekeyLoop tok tok (k :: objKeys o') (pre ++ (k, v) :: o') = _
      rw [rekeyLoop, if_neg hmatch]
      have hre : pre ++ (k, v) :: o' = (pre ++ [(k, v)]) ++ o' := by simp
      rw [hre, rekeyLoop_self_delete tok o' (pre ++ [(k, v)]) (by
        intro k' hk'
        rw [objKeys_append] at hk'
        rcases List.mem_append.mp hk' with h1 | h1
        · exact hpre k' h1
        · simp [objKeys] at h1
          rw [h1]
          exact hfalse), List.filter_cons, if_pos (by rw [hfalse]; rfl)]
      simp

/-- When the old and new tokens coincide, `rekeyObj` deletes every entry whose
key starts with the token and keeps the rest in order. -/
theorem rekeyObj_self_delete (tok : Str) (o : Obj) :
    rekeyObj tok tok o = o.filter fun kv => !(tok.isPrefixOf kv.1) := by
  have := rekeyLoop_self_delete tok o [] (by intro k h; simp [objKeys] at h)
  simpa [rekeyObj] using this

/-- The entry transformation performed on a matching dependency: rekey the
name, keep the version value. -/
def rk (oldTok newTok : Str) (kv : Str × Str) : Str × Str :=
  (replFirst oldTok newTok kv.1, kv.2)

theorem replFirst_inj_on_match {oldTok newTok k₁ k₂ : Str}
    (h₁ : oldTok.isPrefixOf k₁ = true) (h₂ : oldTok.isPrefixOf k₂ = true)
    (he : replFirst oldTok newTok k₁ = replFirst oldTok newTok k₂) : k₁ = k₂ := by
  rcases eq_append_of_isPrefixOf h₁ with ⟨t₁, rfl⟩
  rcases eq_append_of_isPrefixOf h₂ with ⟨t₂, rfl⟩
  rw [replFirst_append, replFirst_append] at he
  rw [List.append_cancel_left he]

theorem mem_objKeys_map_rk {oldTok newTok k : Str} {procd : Obj}
    (h : k ∈ objKeys (procd.map (rk oldTok newTok))) :
    ∃ k' ∈ objKeys procd, replFirst oldTok newTok k' = k := by
  simp only [objKeys, List.map_map, List.mem_map] at h
  rcases h with ⟨kv, hkv, hk⟩
  exact ⟨kv.1, List.mem_map_of_mem _ hkv, hk⟩

/-- The general behaviour of the rekeying loop when no rekeyed name collides
with an existing key: scanned non-matching entries (`pre`) stay in place,
matching entries are removed from their position, and the rekeyed entries
(`procd` holds the already-rekeyed originals) accumulate at the end in scan
order with their values preserved. -/
theorem rekeyLoop_general (oldTok newTok : Str) :
    ∀ (o pre procd : Obj),
      (∀ k ∈ objKeys pre, oldTok.isPrefixOf k = false) →
      (∀ k ∈ objKeys procd, oldTok.isPrefixOf k = true) →
      (objKeys o).Nodup →
      (∀ k ∈ objKeys o, k ∉ objKeys pre) →
      (∀ k ∈ objKeys o, k ∉ objKeys procd) →
      (∀ k, (k ∈ objKeys pre ∨ k ∈ objKeys o ∨ k ∈ objKeys procd) →
        oldTok.isPrefixOf k = true →
          replFirst oldTok newTok k ∉ objKeys pre ∧
          replFirst oldTok newTok k ∉ objKeys o ∧
          replFirst oldTok newTok k ∉ objKeys procd) →
      rekeyLoop oldTok newTok (objKeys o) (pre ++ o ++ procd.map (rk oldTok newTok)) =
        pre ++ (o.filter fun kv => !(oldTok.isPrefixOf kv.1)) ++
          ((procd ++ o.filter fun kv => oldTok.isPrefixOf kv.1).map (rk oldTok newTok))
  | [], pre, procd, _, _, _, _, _, _ => by simp [objKeys, rekeyLoop]
  | (k, v) :: o', pre, procd, hpre, hprocd, hnodup, hdisj1, hdisj2, hnocol => by
    have hk_mem : k ∈ objKeys ((k, v) :: o') := by simp [objKeys]
    have hknotpre : k ∉ objKeys pre := hdisj1 k hk_mem
    have hknoto' : k ∉ objKeys o' := (List.nodup_cons.mp hnodup).1
    have hnodup' : (objKeys o').Nodup := (List.nodup_cons.mp hnodup).2
    have hmem_o' : ∀ k' ∈ objKeys o', k' ∈ objKeys ((k, v) :: o') := by
      intro k' h; simp [objKeys] at h ⊢; exact Or.inr h
    by_cases hmatch : List.isPrefixOf oldTok k = true
    · have hget : objGet k (pre ++ ((k, v) :: o') ++ procd.map (rk oldTok newTok)) =
          some v := by
        rw [List.append_assoc, objGet_append_right _ hknotpre, List.cons_append,
          objGet_cons_self]
      have hnew := hnocol k (Or.inr (Or.inl hk_mem)) hmatch
      have hnewsuf : replFirst oldTok newTok k ∉
          objKeys (procd.map (rk oldTok newTok)) := by
        intro hmem
        rcases mem_objKeys_map_rk hmem with ⟨k₂, hk₂, he⟩
        have := replFirst_inj_on_match (hprocd k₂ hk₂) hmatch he
        rw [this] at hk₂
        exact hdisj2 k hk_mem hk₂
      have hnewall : replFirst oldTok newTok k ∉
          objKeys (pre ++ ((k, v) :: o') ++ procd.map (rk oldTok newTok)) := by
        rw [objKeys_append, objKeys_append]
        intro hmem
        rcases List.mem_append.mp hmem with hmem | hmem
        · rcases List.mem_append.mp hmem with hmem | hmem
          · exact hnew.1 hmem
          · exact hnew.2.1 hmem
        · exact hnewsuf hmem
      have hset := objSet_of_not_mem v _ hnewall
      have hdel : objDelete k ((pre ++ ((k, v) :: o') ++ procd.map (rk oldTok newTok)) ++
          [(replFirst oldTok newTok k, v)]) =
          pre ++ o' ++ (procd ++ [(k, v)]).map (rk oldTok newTok) := by
        have hshape : (pre ++ ((k, v) :: o') ++ procd.map (rk oldTok newTok)) ++
            [(replFirst oldTok newTok k, v)] =
            pre ++ ((k, v) :: (o' ++ (procd.map (rk oldTok newTok) ++
              [(replFirst oldTok newTok k, v)]))) := by simp
        rw [hshape, objDelete_append_right _ hknotpre, objDelete_cons_self]
        have : (procd ++ [(k, v)]).map (rk oldTok newTok) =
            procd.map (rk oldTok newTok) ++ [(replFirst oldTok newTok k, v)] := by
          simp [rk]
        rw [this]
        simp
      show rekeyLoop oldTok newTok (k :: objKeys o') _ = _
      rw [rekeyLoop, if_pos hmatch]
      simp only [hget, hset, hdel]
      rw [rekeyLoop_general oldTok newTok o' pre (procd ++ [(k, v)]) hpre
        (by
          intro k' hk'
          rw [objKeys_append] at hk'
          rcases List.mem_append.mp hk' with h1 | h1
          · exact hprocd k' h1
          · simp [objKeys] at h1; rw [h1]; exact hmatch)
        hnodup'
        (fun k' h => hdisj1 k' (hmem_o' k' h))
        (by
          intro k' hk' hmem
          rw [objKeys_append] at hmem
          rcases List.mem_append.mp hmem with h1 | h1
          · exact hdisj2 k' (hmem_o' k' hk') h1
          · simp [objKeys] at h1; rw [h1] at hk'; exact hknoto' hk')
        (by
          intro k' hmem hm
          have horig : k' ∈ objKeys pre ∨ k' ∈ objKeys ((k, v) :: o') ∨
              k' ∈ objKeys procd := by
            rcases hmem with h1 | h1 | h1
            · exact Or.inl h1
            · exact Or.inr (Or.inl (hmem_o' k' h1))
            · rw [objKeys_append] at h1
              rcases List.mem_append.mp h1 with h2 | h2
              · exact Or.inr (Or.inr h2)
              · simp [objKeys] at h2
                rw [h2]
                exact Or.inr (Or.inl hk_mem)
          have hcon := hnocol k' horig hm
          refine ⟨hcon.1, fun hmem2 => hcon.2.1 (hmem_o' _ hmem2), ?_⟩
          rw [objKeys_append]
          intro hmem2
          rcases List.mem_append.mp hmem2 with h2 | h2
          · exact hcon.2.2 h2
          · simp [objKeys] at h2
            rw [h2] at hcon
            exact hcon.2.1 hk_mem)]
      rw [List.filter_cons, if_neg (by rw [hmatch]; exact Bool.false_ne_true),
        List.filter_cons, if_pos hmatch]
      simp
    · have hfalse : List.isPrefixOf oldTok k = false := Bool.eq_false_iff.mpr hmatch
      show rekeyLoop oldTok newTok (k :: objKeys o') _ = _
      rw [rekeyLoop, if_neg hmatch]
      have hre : pre ++ ((k, v) :: o') ++ procd.map (rk oldTok newTok) =
          (pre ++ [(k, v)]) ++ o' ++ procd.map (rk oldTok newTok) := by simp
      have hprekeys : objKeys (pre ++ [(k, v)]) = objKeys pre ++ [k] := by
        simp [objKeys]
      rw [hre, rekeyLoop_general oldTok newTok o' (pre ++ [(k, v)]) procd
        (by
          intro k' hk'
          rw [hprekeys] at hk'
          rcases List.mem_append.mp hk' with h1 | h1
          · exact hpre k' h1
          · simp at h1; rw [h1]; exact hfalse)
        hprocd hnodup'
        (by
          intro k' hk' hmem
          rw [hprekeys] at hmem
          rcases List.mem_append.mp hmem with h1 | h1
          · exact hdisj1 k' (hmem_o' k' hk') h1
          · simp at h1; rw [h1] at hk'; exact hknoto' hk')
        (fun k' h => hdisj2 k' (hmem_o' k' h))
        (by
          intro k' hmem hm
          have horig : k' ∈ objKeys pre ∨ k' ∈ objKeys ((k, v) :: o') ∨
              k' ∈ objKeys procd := by
            rcases hmem with h1 | h1 | h1
            · rw [hprekeys] at h1
              rcases List.mem_append.mp h1 with h2 | h2
              · exact Or.inl h2
              · simp at h2; rw [h2]; exact Or.inr (Or.inl hk_mem)
            · exact Or.inr (Or.inl (hmem_o' k' h1))
            · exact Or.inr (Or.inr h1)
          have hcon := hnocol k' horig hm
          refine ⟨?_, fun hmem2 => hcon.2.1 (hmem_o' _ hmem2), hcon.2.2⟩
          rw [hprekeys]
          intro hmem2
          rcases List.mem_append.mp hmem2 with h2 | h2
          · exact hcon.1 h2
          · simp at h2
            rw [h2] at hcon
            exact hcon.2.1 hk_mem)]
      simp [List.filter_cons, hfalse]

/-- No-collision characterization of `rekeyObj`: matching entries are removed
from their positions and reappear rekeyed (values preserved) at the end, in
order; all other entries keep their positions and values. -/
theorem rekeyObj_general (oldTok newTok : Str) (o : Obj)
    (hnodup : (objKeys o).Nodup)
    (hnocol : ∀ k ∈ objKeys o, oldTok.isPrefixOf k = true →
      replFirst oldTok newTok k ∉ objKeys o) :
    rekeyObj oldTok newTok o =
      (o.filter fun kv => !(oldTok.isPrefixOf kv.1)) ++
        ((o.filter fun kv => oldTok.isPrefixOf kv.1).map (rk oldTok newTok)) := by
  have := rekeyLoop_general oldTok newTok o [] [] (by simp [objKeys]) (by simp [objKeys])
    hnodup (by simp [objKeys]) (by simp [objKeys])
    (by
      intro k hmem hm
      rcases hmem with h1 | h1 | h1
      · simp [objKeys] at h1
      · exact ⟨by simp [objKeys], hnocol k h1 hm, by simp [objKeys]⟩
      · simp [objKeys] at h1)
  simpa [rekeyObj] using this

/-! Lemmas about the file walk and the source rewrite. -/

mutual
/-- The rewritten tree lists the same paths with per-file transformed
contents. -/
theorem getFiles_rewrite (oldTok newTok newName : Str) :
    ∀ (pfx : Str) (t : FTree),
      getFiles pfx (rewriteTree oldTok newTok newName pfx t) =
        (getFiles pfx t).map fun pc => (pc.1, rewriteSrcFile oldTok newTok newName pc.1 pc.2)
  | pfx, .file nm c => by simp [getFiles, rewriteTree]
  | pfx, .dir nm ch => by
    rw [rewriteTree, getFiles, getFiles]
    exact getFilesList_rewrite oldTok newTok newName (pfx ++ str "/" ++ nm) ch

/-- Forest version of `getFiles_rewrite`. -/
theorem getFilesList_rewrite (oldTok newTok newName : Str) :
    ∀ (pfx : Str) (ts : List FTree),
      getFilesList pfx (rewriteTrees oldTok newTok newName pfx ts) =
        (getFilesList pfx ts).map fun pc =>
          (pc.1, rewriteSrcFile oldTok newTok newName pc.1 pc.2)
  | _, [] => by simp [getFilesList, rewriteTrees]
  | pfx, t :: ts => by
    rw [rewriteTrees, getFilesList, getFilesList, List.map_append,
      getFiles_rewrite oldTok newTok newName pfx t,
      getFilesList_rewrite oldTok newTok newName pfx ts]
end

theorem rewriteSrcFile_id {oldTok newName p c : Str}
    (h : hasSub mfb c = false) : rewriteSrcFile oldTok oldTok newName p c = c := by
  rw [rewriteSrcFile]
  have hcore : processSrcContent oldTok oldTok newName c = c := by
    rw [processSrcContent]
    have hc1 : (if hasSub oldTok c then replAll oldTok oldTok c else c) = c := by
      by_cases hin : hasSub oldTok c = true
      · rw [if_pos hin, replAll_self]
      · rw [if_neg hin]
    simp only [hc1, h]
    rfl
  by_cases hext : srcExtOk p = true
  · rw [if_pos hext]; exact hcore
  · rw [if_neg hext]

mutual
/-- When old and new scope tokens coincide and no file below the tree
contains the boilerplate identifier, the source rewrite is the identity. -/
theorem rewriteTree_id (oldTok newName : Str) :
    ∀ (pfx : Str) (t : FTree),
      (∀ pc ∈ getFiles pfx t, hasSub mfb pc.2 = false) →
      rewriteTree oldTok oldTok newName pfx t = t
  | pfx, .file nm c => fun h => by
    rw [rewriteTree, rewriteSrcFile_id (h (pfx ++ str "/" ++ nm, c) (by simp [getFiles]))]
  | pfx, .dir nm ch => fun h => by
    rw [rewriteTree, rewriteTrees_id oldTok newName (pfx ++ str "/" ++ nm) ch
      (fun pc hpc => h pc (by rw [getFiles]; exact hpc))]

/-- Forest version of `rewriteTree_id`. -/
theorem rewriteTrees_id (oldTok newName : Str) :
    ∀ (pfx : Str) (ts : List FTree),
      (∀ pc ∈ getFilesList pfx ts, hasSub mfb pc.2 = false) →
      rewriteTrees oldTok oldTok newName pfx ts = ts
  | _, [], _ => rfl
  | pfx, t :: ts, h => by
    rw [rewriteTrees, rewriteTree_id oldTok newName pfx t
        (fun pc hpc => h pc (by rw [getFilesList]; exact List.mem_append_left _ hpc)),
      rewriteTrees_id oldTok newName pfx ts
        (fun pc hpc => h pc (by rw [getFilesList]; exact List.mem_append_right _ hpc))]
end

/-! Lemmas about scope detection. -/

theorem detectLoop_cons_skip {e : PkgEntry} (rest : List PkgEntry)
    (h : detSkip e = true) : detectLoop (e :: rest) = detectLoop rest := by
  cases hm : pkgManifestOf e with
  | none => simp only [detectLoop, hm]
  | some jf =>
    cases jf with
    | bad => simp only [detSkip, hm] at h; exact absurd h (by simp)
    | parsed m =>
      cases hn : m.name with
      | none => simp only [detSkip, hm, hn] at h; exact absurd h (by simp)
      | some nm =>
        simp only [detSkip, hm, hn, Bool.not_eq_true'] at h
        simp only [detectLoop, hm, hn]
        rw [if_neg (by rw [h]; exact Bool.false_ne_true)]

theorem detectLoop_append_skip {pre : List PkgEntry} (rest : List PkgEntry)
    (h : ∀ e ∈ pre, detSkip e = true) :
    detectLoop (pre ++ rest) = detectLoop rest := by
  induction pre with
  | nil => rfl
  | cons e pre' ih =>
    rw [List.cons_append, detectLoop_cons_skip _ (h e (by simp)),
      ih fun e' he' => h e' (by simp [he'])]

theorem detectLoop_all_skip {l : List PkgEntry} (h : ∀ e ∈ l, detSkip e = true) :
    detectLoop l = .ok none := by
  have := @detectLoop_append_skip l [] h
  simpa using this

theorem detectLoop_hit {e : PkgEntry} {m : Manifest} {nm : Str} (rest : List PkgEntry)
    (hm : pkgManifestOf e = some (.parsed m)) (hn : m.name = some nm)
    (hs : ((str "@").isPrefixOf nm && hasSub (str "/") nm) = true) :
    detectLoop (e :: rest) = .ok (some (takeBefore '/' nm)) := by
  simp only [detectLoop, hm, hn]
  rw [if_pos hs]

/-! Lemmas about the package-update loop. -/

/-- The entry as left on disk by a successful pass of the loop body. -/
def processedEntry (oldTok newTok newName : Str) (e : PkgEntry) : PkgEntry :=
  match processEntry oldTok newTok newName e with
  | .ok e' => e'
  | .thrown => e

theorem updatePackages_eq_map {oldTok newTok newName : Str} :
    ∀ {l : List PkgEntry}, (updatePackages oldTok newTok newName l).2 = false →
      (updatePackages oldTok newTok newName l).1 =
        l.map (processedEntry oldTok newTok newName) ∧
      ∀ e ∈ l, processEntry oldTok newTok newName e ≠ .thrown
  | [], _ => ⟨rfl, by simp⟩
  | e :: rest, h => by
    rw [updatePackages] at h ⊢
    cases hp : processEntry oldTok newTok newName e with
    | thrown => rw [hp] at h; simp at h
    | ok e' =>
      rw [hp] at h
      simp only at h
      rcases @updatePackages_eq_map oldTok newTok newName rest h with ⟨h1, h2⟩
      refine ⟨?_, ?_⟩
      · simp only [List.map_cons, h1, processedEntry, hp]
      · intro a ha
        rcases List.mem_cons.mp ha with rfl | ha
        · rw [hp]; simp
        · exact h2 a ha

theorem updatePackages_id {oldTok newTok newName : Str} :
    ∀ {l : List PkgEntry}, (∀ e ∈ l, processEntry oldTok newTok newName e = .ok e) →
      updatePackages oldTok newTok newName l = (l, false)
  | [], _ => rfl
  | e :: rest, h => by
    rw [updatePackages, h e (by simp),
      updatePackages_id fun e' he' => h e' (by simp [he'])]

theorem updatePackages_abort {oldTok newTok newName : Str} {e : PkgEntry}
    (he : processEntry oldTok newTok newName e = .thrown) :
    ∀ {pre pre' : List PkgEntry} (post : List PkgEntry),
      updatePackages oldTok newTok newName pre = (pre', false) →
      updatePackages oldTok newTok newName (pre ++ e :: post) =
        (pre' ++ e :: post, true)
  | [], pre', post, h => by
    have hpre : pre' = [] := (congrArg Prod.fst h).symm
    subst hpre
    simp only [List.nil_append]
    rw [updatePackages, he]
  | a :: rest, pre', post, h => by
    simp only [updatePackages] at h
    cases hp : processEntry oldTok newTok newName a with
    | thrown => rw [hp] at h; simp at h
    | ok a' =>
      rw [hp] at h
      simp only [Prod.mk.injEq] at h
      have h2 : (updatePackages oldTok newTok newName rest).2 = false := h.2
      have hrest : updatePackages oldTok newTok newName rest =
          ((updatePackages oldTok newTok newName rest).1, false) := by
        rw [← h2]
      rw [List.cons_append]
      simp only [updatePackages, hp, updatePackages_abort he post hrest]
      rw [← h.1]
      simp

/-! Lemmas about the root step and entry processing. -/

theorem rootStep_shape {root root' : Option JFile} {newName : Str}
    (h : rootStep root newName = .ok root') :
    root' = none ∨ ∃ m, root' = some (.parsed m) ∧ m.name = some newName := by
  cases root with
  | none =>
    left
    have : ExcRes.ok (α := Option JFile) none = .ok root' := h
    cases this
    rfl
  | some jf =>
    cases jf with
    | bad => exact absurd h (by rw [rootStep]; simp)
    | parsed m =>
      right
      rw [rootStep] at h
      cases h
      exact ⟨_, rfl, rfl⟩

theorem processEntry_ok_shape {oldTok newTok newName : Str} {e e' : PkgEntry}
    (h : processEntry oldTok newTok newName e = .ok e') :
    pkgManifestOf e' = none ∨
      ∃ m nm, pkgManifestOf e' = some (.parsed m) ∧ m.name = some nm := by
  cases e with
  | plainFile n => rw [processEntry] at h; cases h; left; rfl
  | pkgdir d =>
    cases hm : d.manifest with
    | none =>
      simp only [processEntry, hm] at h
      cases h
      left
      exact hm
    | some jf =>
      cases jf with
      | bad => simp only [processEntry, hm] at h; exact absurd h (by simp)
      | parsed m =>
        cases hn : m.name with
        | none => simp only [processEntry, hm, hn] at h; exact absurd h (by simp)
        | some nm =>
          simp only [processEntry, hm, hn] at h
          cases h
          right
          exact ⟨_, _, rfl, rfl⟩

theorem objClean_forall {tok : Str} {o : Obj} (h : objClean tok (some o) = true) :
    ∀ k ∈ objKeys o, tok.isPrefixOf k = false := by
  intro k hk
  simp only [objKeys, List.mem_map] at hk
  rcases hk with ⟨kv, hkv, rfl⟩
  have := (List.all_eq_true.mp h) kv hkv
  simpa using this

theorem docRewrite_id {newName c : Str} (h : docClean c = true) :
    docRewrite newName c = c := by
  rw [docClean, Bool.and_eq_true] at h
  rcases h with ⟨h1, h2⟩
  have h1' : hasSub (str "Modern Fullstack Boilerplate") c = false := by simpa using h1
  have h2' : hasSub mfb c = false := by simpa using h2
  rw [docRewrite, replAll_of_not_hasSub _ h1', replAll_of_not_hasSub _ h2']

theorem extraStep_id {newName : Str} {fs : FS} (h : fsDocClean fs = true) :
    extraStep newName fs = fs := by
  rw [fsDocClean, Bool.and_eq_true] at h
  rcases h with ⟨h1, h2⟩
  rw [extraStep]
  have hr : fs.readme.map (docRewrite newName) = fs.readme := by
    cases hrm : fs.readme with
    | none => rfl
    | some c =>
      rw [hrm] at h1
      rw [Option.map_some', docRewrite_id h1]
  have hh : fs.frontendHtml.map (docRewrite newName) = fs.frontendHtml := by
    cases hfh : fs.frontendHtml with
    | none => rfl
    | some c =>
      rw [hfh] at h2
      rw [Option.map_some', docRewrite_id h2]
  rw [hr, hh]

theorem manifest_eta {m : Manifest} {nm : Str} (h : m.name = some nm) :
    Manifest.mk (some nm) m.dependencies m.devDependencies = m := by
  cases m with
  | mk a b c => rw [show a = some nm from h]

theorem pkgdir_eta {d : PkgDir} {jf : JFile} (h : d.manifest = some jf) :
    PkgDir.mk d.dirName (some jf) d.src = d := by
  cases d with
  | mk a b c => rw [show b = some jf from h]

/-- When the old and new scope tokens coincide, an entry with a well-formed
manifest, no dependency key under the token, and no boilerplate identifier
below `src/`, is written back unchanged. -/
theorem processEntry_id (tok newName : Str) {e : PkgEntry}
    (hshape : pkgManifestOf e = none ∨
      ∃ m nm, pkgManifestOf e = some (.parsed m) ∧ m.name = some nm)
    (hdeps : depsCleanB tok e = true) (hmfb : entryNoMfb e = true) :
    processEntry tok tok newName e = .ok e := by
  cases e with
  | plainFile n => rfl
  | pkgdir d =>
    cases hm : d.manifest with
    | none => simp only [processEntry, hm]
    | some jf =>
      rcases hshape with hsh | ⟨m, nm, hsh, hname⟩
      · rw [pkgManifestOf] at hsh; rw [hsh] at hm; cases hm
      · rw [pkgManifestOf] at hsh
        rw [hsh] at hm
        cases hm
        simp only [processEntry, hsh, hname]
        rw [depsCleanB, pkgManifestOf, hsh, Bool.and_eq_true] at hdeps
        have hnm : renameNameField tok tok nm = nm := by
          rw [renameNameField]
          by_cases hp : List.isPrefixOf tok nm = true
          · rw [if_pos hp, replFirst_self]
          · rw [if_neg hp]
        have hdep1 : m.dependencies.map (rekeyObj tok tok) = m.dependencies := by
          cases hdo : m.dependencies with
          | none => rfl
          | some o =>
            rw [hdo] at hdeps
            rw [Option.map_some', rekeyObj_no_match (objClean_forall hdeps.1)]
        have hdep2 : m.devDependencies.map (rekeyObj tok tok) = m.devDependencies := by
          cases hdo : m.devDependencies with
          | none => rfl
          | some o =>
            rw [hdo] at hdeps
            rw [Option.map_some', rekeyObj_no_match (objClean_forall hdeps.2)]
        have hsrc : (d.src).map (rewriteTrees tok tok newName (d.dirName ++ str "/src")) =
            d.src := by
          cases hds : d.src with
          | none => rfl
          | some ts =>
            rw [entryNoMfb, hds] at hmfb
            rw [Option.map_some', rewriteTrees_id tok newName _ ts (by
              intro pc hpc
              have := (List.all_eq_true.mp hmfb) pc hpc
              simpa using this)]
        rw [hnm, hdep1, hdep2, hsrc, manifest_eta hname, pkgdir_eta hsh]

theorem updatePackages_no_throw {oldTok newTok newName : Str} :
    ∀ {l : List PkgEntry}, (∀ e ∈ l, processEntry oldTok newTok newName e ≠ .thrown) →
      (updatePackages oldTok newTok newName l).2 = false
  | [], _ => rfl
  | e :: rest, h => by
    simp only [updatePackages]
    cases hp : processEntry oldTok newTok newName e with
    | thrown => exact absurd hp (h e (by simp))
    | ok e' => exact updatePackages_no_throw fun e₂ he₂ => h e₂ (by simp [he₂])

theorem extraStep_packages (newName : Str) (fs : FS) :
    (extraStep newName fs).packages = fs.packages := rfl

theorem extraStep_rootPkg (newName : Str) (fs : FS) :
    (extraStep newName fs).rootPkg = fs.rootPkg := rfl

/-- Success-path unfolding of `renameProject` when `packages/` exists. -/
theorem renameProject_ok_unfold {fs : FS} {n s : Str} {l : List PkgEntry}
    {root' : Option JFile}
    (hd : detectScope fs.packages = .ok s)
    (hroot : rootStep fs.rootPkg n = .ok root')
    (hp : fs.packages = some l)
    (hupd : (updatePackages (s ++ str "/") (str "@" ++ n ++ str "/") n l).2 = false) :
    renameProject fs n =
      (extraStep n { fs with rootPkg := root', packages := some (updatePackages (s ++ str "/") (str "@" ++ n ++ str "/") n l).1 }, false) := by
  have hd' : detectScope (some l) = .ok s := by rw [← hp]; exact hd
  simp only [renameProject, hp, hd', hroot, hupd]
  rfl

/-- Success-path unfolding of `renameProject` when `packages/` is absent. -/
theorem renameProject_ok_unfold_nopkgs {fs : FS} {n : Str} {root' : Option JFile}
    (hroot : rootStep fs.rootPkg n = .ok root')
    (hp : fs.packages = none) :
    renameProject fs n = (extraStep n { fs with rootPkg := root' }, false) := by
  simp only [renameProject, hp, detectScope, hroot]

/-- Abort-path unfolding: a throw inside the package loop keeps the root
update and the completed prefix of the loop, skips the extra files, and
reports the throw. -/
theorem renameProject_abort_unfold {fs : FS} {n s : Str} {l : List PkgEntry}
    {root' : Option JFile}
    (hd : detectScope fs.packages = .ok s)
    (hroot : rootStep fs.rootPkg n = .ok root')
    (hp : fs.packages = some l)
    (hupd : (updatePackages (s ++ str "/") (str "@" ++ n ++ str "/") n l).2 = true) :
    renameProject fs n =
      ({ fs with rootPkg := root', packages := some (updatePackages (s ++ str "/") (str "@" ++ n ++ str "/") n l).1 }, true) := by
  have hd' : detectScope (some l) = .ok s := by rw [← hp]; exact hd
  simp only [renameProject, hp, hd', hroot, hupd]
  rfl

/-- A throw during scope detection leaves the tree untouched. -/
theorem renameProject_detect_thrown {fs : FS} {n : Str}
    (hd : detectScope fs.packages = .thrown) : renameProject fs n = (fs, true) := by
  simp only [renameProject, hd]

/-- Error-path decomposition for a successful run with `packages/` present. -/
theorem renameProject_ok_components {fs : FS} {n s : Str} {l : List PkgEntry}
    (hok : (renameProject fs n).2 = false)
    (hd : detectScope fs.packages = .ok s)
    (hp : fs.packages = some l) :
    ∃ root', rootStep fs.rootPkg n = .ok root' ∧
      (updatePackages (s ++ str "/") (str "@" ++ n ++ str "/") n l).2 = false ∧
      renameProject fs n =
        (extraStep n { fs with rootPkg := root', packages := some (updatePackages (s ++ str "/") (str "@" ++ n ++ str "/") n l).1 }, false) := by
  cases hroot : rootStep fs.rootPkg n with
  | thrown =>
    exfalso
    simp only [renameProject, hd, hroot] at hok
    exact absurd hok (by decide)
  | ok root' =>
    cases hupd : (updatePackages (s ++ str "/") (str "@" ++ n ++ str "/") n l).2 with
    | true =>
      exfalso
      rw [renameProject_abort_unfold hd hroot hp hupd] at hok
      simp at hok
    | false =>
      exact ⟨root', rfl, rfl, renameProject_ok_unfold hd hroot hp hupd⟩

/-! The claims. -/

/-- C5: for every file below a package's `src/` tree (at any depth) whose
extension is `.ts`, `.tsx`, `.js` or `.jsx`: when its text contains the
old scope token, every occurrence is replaced by the new scope token;
independently, when the (updated) text contains the literal
`modern-fullstack-boilerplate`, every occurrence is replaced by the new
name — in particular a file containing only the boilerplate identifier
and no scope token has exactly that identifier replaced (and is written
back); files are otherwise unchanged, and a file containing neither
token is not written back (`srcWritten` is false, content kept). -/
theorem c5_source_file_rewrite (oldTok newTok newName pfx : Str) (ts : List FTree) :
    (getFilesList pfx (rewriteTrees oldTok newTok newName pfx ts) =
      (getFilesList pfx ts).map fun pc =>
        (pc.1, rewriteSrcFile oldTok newTok newName pc.1 pc.2)) ∧
    (∀ p c, srcExtOk p = true → hasSub oldTok c = true →
      rewriteSrcFile oldTok newTok newName p c =
        (if hasSub mfb (replAll oldTok newTok c) = true
          then replAll mfb newName (replAll oldTok newTok c)
          else replAll oldTok newTok c)) ∧
    (∀ p c, srcExtOk p = true → hasSub oldTok c = false → hasSub mfb c = true →
      rewriteSrcFile oldTok newTok newName p c = replAll mfb newName c ∧
        srcWritten oldTok newTok c = true) ∧
    (∀ p c, hasSub oldTok c = false → hasSub mfb c = false →
      rewriteSrcFile oldTok newTok newName p c = c ∧
        srcWritten oldTok newTok c = false) := by
  refine ⟨getFilesList_rewrite oldTok newTok newName pfx ts, ?_, ?_, ?_⟩
  · intro p c hext hin
    rw [rewriteSrcFile, if_pos hext, processSrcContent]
    simp only [hin, if_true]
  · intro p c hext hout hin
    constructor
    · rw [rewriteSrcFile, if_pos hext, processSrcContent]
      simp only [hout, Bool.false_eq_true, if_false, hin, if_true]
    · rw [srcWritten]
      simp only [hout, Bool.false_eq_true, if_false, hin, Bool.false_or]
  · intro p c hout hnom
    constructor
    · rw [rewriteSrcFile]
      have hcore : processSrcContent oldTok newTok newName c = c := by
        rw [processSrcContent]
        simp only [hout, Bool.false_eq_true, if_false, hnom]
      by_cases hext : srcExtOk p = true
      · rw [if_pos hext, hcore]
      · rw [if_neg hext]
    · rw [srcWritten]
      simp only [hout, Bool.false_eq_true, if_false, hnom, Bool.or_self]

/-- C6: scope detection scans the entries of `packages/` in listing order;
the first entry whose manifest name starts with `@` and contains `/`
determines the scope token (the part of that name before the first `/`),
and nothing after it is scanned (the result is the same for every suffix
`post`, even one whose manifests would throw if read); when no entry
matches, the hardcoded fallback `@repo` is used. -/
theorem c6_scope_detection (pre post : List PkgEntry) (d : PkgDir)
    (m : Manifest) (nm : Str) :
    ((∀ e ∈ pre, detSkip e = true) → d.manifest = some (.parsed m) →
      m.name = some nm → ((str "@").isPrefixOf nm && hasSub (str "/") nm) = true →
      detectScope (some (pre ++ .pkgdir d :: post)) = .ok (takeBefore '/' nm)) ∧
    ((∀ e ∈ pre, detSkip e = true) → detectScope (some pre) = .ok (str "@repo")) := by
  constructor
  · intro hpre hm hn hs
    have hl : detectLoop (pre ++ .pkgdir d :: post) = .ok (some (takeBefore '/' nm)) := by
      rw [detectLoop_append_skip _ hpre,
        detectLoop_hit post (show pkgManifestOf (.pkgdir d) = some (.parsed m) from hm)
          hn hs]
    simp only [detectScope, hl]
  · intro hpre
    have hl : detectLoop pre = .ok none := detectLoop_all_skip hpre
    simp only [detectScope, hl]

/-- C8: on the success path, the `rename` command invokes the core rename
routine exactly twice in sequence (each time on the threaded project state
with the same new name, each followed by a success report) before the
folder-relocation step. -/
theorem c8_command_invokes_rename_twice (fs : FS) (n : Str)
    (h1 : (renameProject fs n).2 = false)
    (h2 : (renameProject (renameProject fs n).1 n).2 = false) :
    renameCmdTrace fs n =
      [.renameCall n, .reportSuccess, .renameCall n, .reportSuccess, .relocateStep] ∧
    (renameCmdTrace fs n).count (.renameCall n) = 2 := by
  have ht : renameCmdTrace fs n =
      [.renameCall n, .reportSuccess, .renameCall n, .reportSuccess, .relocateStep] := by
    rw [renameCmdTrace]
    simp only [h1, h2, Bool.false_eq_true, if_false]
  refine ⟨ht, ?_⟩
  rw [ht]
  simp [List.count_cons]

/-- C9 (implicit): when the detected scope token coincides with the new scope
token `@newName/` (the project is already scoped under the target name),
the per-package rekeying deletes every dependencies and devDependencies
key starting with that token: each is reassigned to itself and then
deleted. -/
theorem c9_same_token_deletes_scoped_deps (fs : FS) (n : Str) (l : List PkgEntry)
    (i : Nat) (d : PkgDir) (m : Manifest) (nm : Str)
    (hp : fs.packages = some l)
    (hd : detectScope fs.packages = .ok (str "@" ++ n))
    (hi : l.get? i = some (.pkgdir d))
    (hm : d.manifest = some (.parsed m))
    (hn : m.name = some nm)
    (hok : (renameProject fs n).2 = false) :
    pkgDepsAt (renameProject fs n).1 i =
      m.dependencies.map (List.filter fun kv =>
        !((str "@" ++ n ++ str "/").isPrefixOf kv.1)) ∧
    pkgDevDepsAt (renameProject fs n).1 i =
      m.devDependencies.map (List.filter fun kv =>
        !((str "@" ++ n ++ str "/").isPrefixOf kv.1)) := by
  obtain ⟨root', hroot, hupd, hre⟩ := renameProject_ok_components hok hd hp
  have htok : (str "@" ++ n) ++ str "/" = str "@" ++ n ++ str "/" :=
    List.append_assoc _ _ _
  have hmap : ∀ (oo : Option Obj),
      oo.map (rekeyObj (str "@" ++ n ++ str "/") (str "@" ++ n ++ str "/")) =
        oo.map (List.filter fun kv => !((str "@" ++ n ++ str "/").isPrefixOf kv.1)) := by
    intro oo
    cases oo with
    | none => rfl
    | some o => rw [Option.map_some', Option.map_some', rekeyObj_self_delete]
  have hupd1 := (updatePackages_eq_map hupd).1
  rw [hre]
  constructor
  · simp only [pkgDepsAt, extraStep_packages]
    rw [hupd1, List.get?_map, hi, Option.map_some']
    simp only [processedEntry, processEntry, hm, hn]
    rw [htok, hmap]
  · simp only [pkgDevDepsAt, extraStep_packages]
    rw [hupd1, List.get?_map, hi, Option.map_some']
    simp only [processedEntry, processEntry, hm, hn]
    rw [htok, hmap]

/-- C1: for a tree whose `packages/` holds sub-packages whose manifest names
are the detected scope followed by `/pkgA` and `/pkgB`, a successful
rename renames those manifests to `@newName/pkgA` and `@newName/pkgB`,
and sets the root manifest's `name` to exactly the new name regardless of
its previous value. -/
theorem c1_rename_scoped_packages_and_root (fs : FS) (n s : Str)
    (l : List PkgEntry) (iA iB : Nat) (dA dB : PkgDir) (mA mB : Manifest)
    (pA pB : Str) (rm : Manifest)
    (hd : detectScope fs.packages = .ok s)
    (hp : fs.packages = some l)
    (hiA : l.get? iA = some (.pkgdir dA))
    (hmA : dA.manifest = some (.parsed mA))
    (hnA : mA.name = some (s ++ str "/" ++ pA))
    (hiB : l.get? iB = some (.pkgdir dB))
    (hmB : dB.manifest = some (.parsed mB))
    (hnB : mB.name = some (s ++ str "/" ++ pB))
    (hr : fs.rootPkg = some (.parsed rm))
    (hok : (renameProject fs n).2 = false) :
    (renameProject fs n).1.rootPkg = some (.parsed { rm with name := some n }) ∧
    pkgNameAt (renameProject fs n).1 iA = some (str "@" ++ n ++ str "/" ++ pA) ∧
    pkgNameAt (renameProject fs n).1 iB = some (str "@" ++ n ++ str "/" ++ pB) := by
  obtain ⟨root', hroot, hupd, hre⟩ := renameProject_ok_components hok hd hp
  have hroot' : root' = some (.parsed { rm with name := some n }) := by
    rw [hr] at hroot
    simp only [rootStep] at hroot
    injection hroot with h2
    exact h2.symm
  have hname : ∀ (d : PkgDir) (m : Manifest) (p : Str) (i : Nat),
      l.get? i = some (.pkgdir d) → d.manifest = some (.parsed m) →
      m.name = some (s ++ str "/" ++ p) →
      pkgNameAt (renameProject fs n).1 i = some (str "@" ++ n ++ str "/" ++ p) := by
    intro d m p i hi hm hn
    rw [hre]
    simp only [pkgNameAt, extraStep_packages]
    rw [(updatePackages_eq_map hupd).1, List.get?_map, hi, Option.map_some']
    simp only [processedEntry, processEntry, hm, hn]
    rw [renameNameField]
    rw [if_pos (isPrefixOf_append_self _ _), replFirst_append]
  refine ⟨?_, hname dA mA pA iA hiA hmA hnA, hname dB mB pB iB hiB hmB hnB⟩
  rw [hre]
  exact hroot'

/-- C10 (implicit): a sub-package manifest without a `name` field makes the
unguarded `data.name.startsWith` accesses throw.  Reached during scope
detection (no scoped name before it), the routine throws with the tree
untouched; reached during the per-package pass, the routine stops there:
the root manifest and earlier packages keep their updates, the failing
and later packages are untouched, and the documentation rewrite is
skipped. -/
theorem c10_missing_name_field_throws (fs : FS) (n s : Str)
    (pre post pre' : List PkgEntry) (d : PkgDir) (m : Manifest)
    (root' : Option JFile) :
    (fs.packages = some (pre ++ .pkgdir d :: post) →
      (∀ e ∈ pre, detSkip e = true) →
      d.manifest = some (.parsed m) → m.name = none →
      renameProject fs n = (fs, true)) ∧
    (fs.packages = some (pre ++ .pkgdir d :: post) →
      detectScope fs.packages = .ok s →
      rootStep fs.rootPkg n = .ok root' →
      updatePackages (s ++ str "/") (str "@" ++ n ++ str "/") n pre = (pre', false) →
      d.manifest = some (.parsed m) → m.name = none →
      renameProject fs n =
        ({ fs with rootPkg := root', packages := some (pre' ++ .pkgdir d :: post) }, true)) := by
  constructor
  · intro hp hpre hm hn
    have hl : detectLoop (pre ++ .pkgdir d :: post) = .thrown := by
      rw [detectLoop_append_skip _ hpre]
      simp only [detectLoop, pkgManifestOf, hm, hn]
    have hd : detectScope fs.packages = .thrown := by
      rw [hp]
      simp only [detectScope, hl]
    exact renameProject_detect_thrown hd
  · intro hp hd hroot hupdpre hm hn
    have hthrown : processEntry (s ++ str "/") (str "@" ++ n ++ str "/") n
        (.pkgdir d) = .thrown := by
      simp only [processEntry, hm, hn]
    have habort := updatePackages_abort hthrown post hupdpre
    have hupd : (updatePackages (s ++ str "/") (str "@" ++ n ++ str "/") n
        (pre ++ .pkgdir d :: post)).2 = true := by rw [habort]
    rw [renameProject_abort_unfold hd hroot hp hupd, habort]

theorem rootStep_ok_of_parses {fs : FS} (n : Str) (h : rootParses fs = true) :
    ∃ root', rootStep fs.rootPkg n = .ok root' := by
  cases hr : fs.rootPkg with
  | none => exact ⟨none, rfl⟩
  | some jf =>
    cases jf with
    | bad => rw [rootParses, hr] at h; exact absurd h (by simp)
    | parsed m => exact ⟨some (.parsed { m with name := some n }), rfl⟩

/-- C4 (amended): an unparsable sub-package manifest does not merely skip
that package — `readJson` throws and the per-package pass aborts: the root
update and the packages processed before the failure keep their new
contents, the failing package and all later ones are untouched, the
documentation rewrite is skipped, and the run reports the throw. -/
theorem c4_parse_failure_aborts (fs : FS) (n s : Str)
    (pre post pre' : List PkgEntry) (d : PkgDir) (root' : Option JFile)
    (hp : fs.packages = some (pre ++ .pkgdir d :: post))
    (hd : detectScope fs.packages = .ok s)
    (hroot : rootStep fs.rootPkg n = .ok root')
    (hupdpre : updatePackages (s ++ str "/") (str "@" ++ n ++ str "/") n pre =
      (pre', false))
    (hm : d.manifest = some .bad) :
    renameProject fs n =
      ({ fs with rootPkg := root', packages := some (pre' ++ .pkgdir d :: post) },
        true) := by
  have hthrown : processEntry (s ++ str "/") (str "@" ++ n ++ str "/") n
      (.pkgdir d) = .thrown := by
    simp only [processEntry, hm]
  have habort := updatePackages_abort hthrown post hupdpre
  have hupd : (updatePackages (s ++ str "/") (str "@" ++ n ++ str "/") n
      (pre ++ .pkgdir d :: post)).2 = true := by rw [habort]
  rw [renameProject_abort_unfold hd hroot hp hupd, habort]

theorem repoTok_isPrefixOf_eq_false {nm : Str}
    (h : ((str "@").isPrefixOf nm && hasSub (str "/") nm) = false) :
    (str "@repo/").isPrefixOf nm = false := by
  cases hb : (str "@repo/").isPrefixOf nm with
  | false => rfl
  | true =>
    exfalso
    rcases eq_append_of_isPrefixOf hb with ⟨t, rfl⟩
    have h1 : (str "@").isPrefixOf (str "@repo/" ++ t) = true := rfl
    have h2 : hasSub (str "/") (str "@repo/" ++ t) = true := by
      rw [show str "@repo/" ++ t = str "@repo" ++ str "/" ++ t from rfl]
      exact hasSub_of_append _ _ _
    rw [h1, h2] at h
    exact absurd h (by decide)

/-- Per-entry behaviour under the fallback token when the entry has no
scoped name and no `@repo/`-scoped dependency keys: the manifest on disk
is written back unchanged (only the `src/` tree may be rewritten). -/
theorem processEntry_repo_manifest {newTok newName : Str} {e : PkgEntry}
    (hskip : detSkip e = true) (hclean : depsCleanB (str "@repo/") e = true) :
    processEntry (str "@repo/") newTok newName e ≠ .thrown ∧
    (∀ nmf, e = .plainFile nmf →
      processedEntry (str "@repo/") newTok newName e = e) ∧
    (∀ d, e = .pkgdir d → ∃ d',
      processedEntry (str "@repo/") newTok newName e = .pkgdir d' ∧
        d'.manifest = d.manifest) := by
  cases e with
  | plainFile nmf =>
    refine ⟨by simp [processEntry], fun _ _ => rfl, fun d hd => PkgEntry.noConfusion hd⟩
  | pkgdir d =>
    cases hm : d.manifest with
    | none =>
      refine ⟨by simp [processEntry, hm], fun nmf h => PkgEntry.noConfusion h,
        fun d₂ hd₂ => ?_⟩
      injection hd₂ with hd3
      subst hd3
      exact ⟨d, by simp [processedEntry, processEntry, hm], rfl⟩
    | some jf =>
      cases jf with
      | bad =>
        simp only [detSkip, pkgManifestOf, hm] at hskip
        exact absurd hskip (by decide)
      | parsed m =>
        cases hn : m.name with
        | none =>
          simp only [detSkip, pkgManifestOf, hm, hn] at hskip
          exact absurd hskip (by decide)
        | some nm =>
          have hsc : ((str "@").isPrefixOf nm && hasSub (str "/") nm) = false := by
            cases hx : ((str "@").isPrefixOf nm && hasSub (str "/") nm) with
            | false => rfl
            | true =>
              exfalso
              have h2 := hskip
              simp only [detSkip, pkgManifestOf, hm, hn, hx] at h2
              exact absurd h2 (by decide)
          have hnopref : (str "@repo/").isPrefixOf nm = false := repoTok_isPrefixOf_eq_false hsc
          rw [depsCleanB, pkgManifestOf, hm, Bool.and_eq_true] at hclean
          have hnm : renameNameField (str "@repo/") newTok nm = nm := by
            rw [renameNameField, if_neg (by rw [hnopref]; exact Bool.false_ne_true)]
          have hdep1 : m.dependencies.map (rekeyObj (str "@repo/") newTok) =
              m.dependencies := by
            cases hdo : m.dependencies with
            | none => rfl
            | some o =>
              rw [hdo] at hclean
              rw [Option.map_some', rekeyObj_no_match (objClean_forall hclean.1)]
          have hdep2 : m.devDependencies.map (rekeyObj (str "@repo/") newTok) =
              m.devDependencies := by
            cases hdo : m.devDependencies with
            | none => rfl
            | some o =>
              rw [hdo] at hclean
              rw [Option.map_some', rekeyObj_no_match (objClean_forall hclean.2)]
          refine ⟨by simp [processEntry, hm, hn], fun nmf h => PkgEntry.noConfusion h,
            fun d₂ hd₂ => ?_⟩
          injection hd₂ with hd3
          subst hd3
          refine ⟨PkgDir.mk d.dirName (some (.parsed m)) ((d.src).map
            (rewriteTrees (str "@repo/") newTok newName (d.dirName ++ str "/src"))),
            ?_, hm.symm⟩
          simp only [processedEntry, processEntry, hm, hn]
          rw [hnm, hdep1, hdep2, manifest_eta hn]

/-- C7 (amended): when no sub-package manifest has a scoped name (and every
manifest that exists parses and carries a name), detection falls back to
`@repo`; provided additionally that no dependencies or devDependencies
key begins with `@repo/`, the per-package pass changes no manifest: every
package name, dependencies map and devDependencies map is left exactly as
it was, and the run succeeds. -/
theorem c7_fallback_scope_skips_scoped_renaming (fs : FS) (n : Str)
    (l : List PkgEntry)
    (hp : fs.packages = some l)
    (hskip : ∀ e ∈ l, detSkip e = true)
    (hclean : ∀ e ∈ l, depsCleanB (str "@repo/") e = true)
    (hroot : rootParses fs = true) :
    detectScope fs.packages = .ok (str "@repo") ∧
    (renameProject fs n).2 = false ∧
    ∀ i : Nat, pkgNameAt (renameProject fs n).1 i = pkgNameAt fs i ∧
      pkgDepsAt (renameProject fs n).1 i = pkgDepsAt fs i ∧
      pkgDevDepsAt (renameProject fs n).1 i = pkgDevDepsAt fs i := by
  have htok : str "@repo" ++ str "/" = str "@repo/" := by decide
  have hd : detectScope fs.packages = .ok (str "@repo") := by
    rw [hp]
    simp only [detectScope, detectLoop_all_skip hskip]
  obtain ⟨root', hroot'⟩ := rootStep_ok_of_parses n hroot
  have hupd : (updatePackages (str "@repo" ++ str "/") (str "@" ++ n ++ str "/") n
      l).2 = false :=
    updatePackages_no_throw fun e he =>
      (processEntry_repo_manifest (hskip e he) (hclean e he)).1
  have hre := renameProject_ok_unfold hd hroot' hp hupd
  have hmap := (updatePackages_eq_map hupd).1
  rw [htok] at hre hmap
  refine ⟨hd, by rw [hre], fun i => ?_⟩
  rw [hre]
  have hobs : ∀ (X : FS), X.packages =
      some (l.map (processedEntry (str "@repo/") (str "@" ++ n ++ str "/") n)) →
      pkgNameAt X i = pkgNameAt fs i ∧ pkgDepsAt X i = pkgDepsAt fs i ∧
      pkgDevDepsAt X i = pkgDevDepsAt fs i := by
    intro X hX
    cases hgi : l.get? i with
    | none =>
      have hgi' : (l.map (processedEntry (str "@repo/")
          (str "@" ++ n ++ str "/") n)).get? i = none := by
        rw [List.get?_map, hgi, Option.map_none']
      refine ⟨?_, ?_, ?_⟩ <;>
        simp only [pkgNameAt, pkgDepsAt, pkgDevDepsAt, hX, hp, hgi, hgi']
    | some e =>
      have hgi' : (l.map (processedEntry (str "@repo/")
          (str "@" ++ n ++ str "/") n)).get? i =
          some (processedEntry (str "@repo/") (str "@" ++ n ++ str "/") n e) := by
        rw [List.get?_map, hgi, Option.map_some']
      have hent := @processEntry_repo_manifest (str "@" ++ n ++ str "/") n e
        (hskip e (List.get?_mem hgi)) (hclean e (List.get?_mem hgi))
      cases e with
      | plainFile nmf =>
        have heq := hent.2.1 nmf rfl
        refine ⟨?_, ?_, ?_⟩ <;>
          simp only [pkgNameAt, pkgDepsAt, pkgDevDepsAt, hX, hp, hgi, hgi', heq]
      | pkgdir d =>
        obtain ⟨d', heq, hman⟩ := hent.2.2 d rfl
        refine ⟨?_, ?_, ?_⟩ <;>
          simp only [pkgNameAt, pkgDepsAt, pkgDevDepsAt, hX, hp, hgi, hgi', heq, hman]
  exact hobs _ (by simp only [extraStep_packages, hmap])

theorem renameProject_root_thrown {fs : FS} {n s : Str}
    (hd : detectScope fs.packages = .ok s)
    (hroot : rootStep fs.rootPkg n = .thrown) : renameProject fs n = (fs, true) := by
  simp only [renameProject, hd, hroot]

theorem updatePackages_shapes {oldTok newTok newName : Str} {l l' : List PkgEntry}
    (h : updatePackages oldTok newTok newName l = (l', false)) :
    ∀ e' ∈ l', pkgManifestOf e' = none ∨
      ∃ m nm, pkgManifestOf e' = some (.parsed m) ∧ m.name = some nm := by
  have h2 : (updatePackages oldTok newTok newName l).2 = false := by rw [h]
  have h1 : l' = l.map (processedEntry oldTok newTok newName) := by
    rw [← (updatePackages_eq_map h2).1, h]
  intro e' he'
  rw [h1] at he'
  rcases List.mem_map.mp he' with ⟨e, he, heq⟩
  have hnt := (updatePackages_eq_map h2).2 e he
  cases hp : processEntry oldTok newTok newName e with
  | thrown => exact absurd hp hnt
  | ok e'' =>
    have he2 : e' = e'' := by rw [← heq]; simp [processedEntry, hp]
    rw [he2]
    exact processEntry_ok_shape hp

theorem fsAllB_forall {p : PkgEntry → Bool} {fs : FS} {l : List PkgEntry}
    (h : fsAllB p fs = true) (hp : fs.packages = some l) : ∀ e ∈ l, p e = true := by
  rw [fsAllB, hp] at h
  exact List.all_eq_true.mp h

theorem rootStep_idem {root : Option JFile} {n : Str}
    (h : root = none ∨ ∃ m, root = some (.parsed m) ∧ m.name = some n) :
    rootStep root n = .ok root := by
  rcases h with rfl | ⟨m, rfl, hm⟩
  · rfl
  · simp only [rootStep]
    rw [manifest_eta hm]

theorem fs_mk_eta (fs : FS) :
    FS.mk fs.rootPkg fs.packages fs.readme fs.frontendHtml = fs := by
  cases fs
  rfl

/-- C3 (amended): for a processed sub-package manifest whose dependency maps
have distinct keys and in which no rekeyed key equals a key already in
the map, every dependencies and devDependencies key beginning with the
old scope token is rekeyed to the new-scope key with its version value
preserved (the rekeyed entries move, in scan order, to the end of the
map), while every other key keeps its position and value. -/
theorem c3_dependency_rekeying (fs : FS) (n s : Str) (l : List PkgEntry)
    (i : Nat) (d : PkgDir) (m : Manifest) (nm : Str) (dobj vobj : Obj)
    (hp : fs.packages = some l)
    (hd : detectScope fs.packages = .ok s)
    (hi : l.get? i = some (.pkgdir d))
    (hm : d.manifest = some (.parsed m))
    (hn : m.name = some nm)
    (hdo : m.dependencies = some dobj)
    (hvo : m.devDependencies = some vobj)
    (hnodup1 : (objKeys dobj).Nodup)
    (hnodup2 : (objKeys vobj).Nodup)
    (hnocol1 : ∀ k ∈ objKeys dobj, (s ++ str "/").isPrefixOf k = true →
      replFirst (s ++ str "/") (str "@" ++ n ++ str "/") k ∉ objKeys dobj)
    (hnocol2 : ∀ k ∈ objKeys vobj, (s ++ str "/").isPrefixOf k = true →
      replFirst (s ++ str "/") (str "@" ++ n ++ str "/") k ∉ objKeys vobj)
    (hok : (renameProject fs n).2 = false) :
    pkgDepsAt (renameProject fs n).1 i =
      some ((dobj.filter fun kv => !((s ++ str "/").isPrefixOf kv.1)) ++
        ((dobj.filter fun kv => (s ++ str "/").isPrefixOf kv.1).map
          (rk (s ++ str "/") (str "@" ++ n ++ str "/")))) ∧
    pkgDevDepsAt (renameProject fs n).1 i =
      some ((vobj.filter fun kv => !((s ++ str "/").isPrefixOf kv.1)) ++
        ((vobj.filter fun kv => (s ++ str "/").isPrefixOf kv.1).map
          (rk (s ++ str "/") (str "@" ++ n ++ str "/")))) := by
  obtain ⟨root', hroot, hupd, hre⟩ := renameProject_ok_components hok hd hp
  have hupd1 := (updatePackages_eq_map hupd).1
  rw [hre]
  constructor
  · simp only [pkgDepsAt, extraStep_packages]
    rw [hupd1, List.get?_map, hi, Option.map_some']
    simp only [processedEntry, processEntry, hm, hn]
    rw [hdo, Option.map_some', rekeyObj_general _ _ _ hnodup1 hnocol1]
  · simp only [pkgDevDepsAt, extraStep_packages]
    rw [hupd1, List.get?_map, hi, Option.map_some']
    simp only [processedEntry, processEntry, hm, hn]
    rw [hvo, Option.map_some', rekeyObj_general _ _ _ hnodup2 hnocol2]

/-- C2 (amended): a second `renameProject` run with the same name changes no
file content, provided the first run succeeded and its output satisfies:
the scope detected on it is `@newName`; no dependencies or
devDependencies key begins with `@newName/` (otherwise the second run
deletes those keys — see the counterexample and C9); no source file still
contains the boilerplate identifier; and the readme and the frontend html
are free of both documentation tokens. -/
theorem c2_second_run_is_identity (fs0 fs1 : FS) (n : Str)
    (h0 : renameProject fs0 n = (fs1, false))
    (h1 : detectScope fs1.packages = .ok (str "@" ++ n))
    (h3 : fsAllB (depsCleanB (str "@" ++ n ++ str "/")) fs1 = true)
    (h4 : fsAllB entryNoMfb fs1 = true)
    (h5 : fsDocClean fs1 = true) :
    renameProject fs1 n = (fs1, false) := by
  cases hd0 : detectScope fs0.packages with
  | thrown =>
    rw [renameProject_detect_thrown hd0] at h0
    exact Bool.noConfusion (congrArg Prod.snd h0)
  | ok s0 =>
    cases hroot0 : rootStep fs0.rootPkg n with
    | thrown =>
      rw [renameProject_root_thrown hd0 hroot0] at h0
      exact Bool.noConfusion (congrArg Prod.snd h0)
    | ok root0 =>
      have hrs := rootStep_shape hroot0
      cases hpk0 : fs0.packages with
      | none =>
        rw [renameProject_ok_unfold_nopkgs hroot0 hpk0] at h0
        have hfs1 : extraStep n { fs0 with rootPkg := root0 } = fs1 :=
          congrArg Prod.fst h0
        have hroot1 : fs1.rootPkg = root0 := by rw [← hfs1]; rfl
        have hpk1 : fs1.packages = none := by rw [← hfs1]; exact hpk0
        have hrootok : rootStep fs1.rootPkg n = .ok fs1.rootPkg := by
          rw [hroot1]; exact rootStep_idem hrs
        rw [renameProject_ok_unfold_nopkgs hrootok hpk1, fs_mk_eta, extraStep_id h5]
      | some l0 =>
        cases hupd0 : (updatePackages (s0 ++ str "/") (str "@" ++ n ++ str "/") n
            l0).2 with
        | true =>
          rw [renameProject_abort_unfold hd0 hroot0 hpk0 hupd0] at h0
          exact Bool.noConfusion (congrArg Prod.snd h0)
        | false =>
          rw [renameProject_ok_unfold hd0 hroot0 hpk0 hupd0] at h0
          have hfs1 := congrArg Prod.fst h0
          simp only at hfs1
          have hroot1 : fs1.rootPkg = root0 := by rw [← hfs1]; rfl
          have hpk1 : fs1.packages =
              some (updatePackages (s0 ++ str "/") (str "@" ++ n ++ str "/") n
                l0).1 := by
            rw [← hfs1]; exact congrArg (Option.some) rfl
          have hupdeq : updatePackages (s0 ++ str "/") (str "@" ++ n ++ str "/") n
              l0 = ((updatePackages (s0 ++ str "/") (str "@" ++ n ++ str "/") n
                l0).1, false) := by
            rw [← hupd0]
          have hshapes := updatePackages_shapes hupdeq
          have hid : ∀ e ∈ (updatePackages (s0 ++ str "/")
              (str "@" ++ n ++ str "/") n l0).1,
              processEntry (str "@" ++ n ++ str "/") (str "@" ++ n ++ str "/") n e =
                .ok e := by
            intro e he
            exact processEntry_id (str "@" ++ n ++ str "/") n (hshapes e he)
              (fsAllB_forall h3 hpk1 e he) (fsAllB_forall h4 hpk1 e he)
          have hupdid := updatePackages_id hid
          have hrootok : rootStep fs1.rootPkg n = .ok fs1.rootPkg := by
            rw [hroot1]; exact rootStep_idem hrs
          have hre1 := renameProject_ok_unfold h1 hrootok hpk1 (by rw [hupdid])
          rw [hre1, hupdid]
          rw [← hpk1, fs_mk_eta, extraStep_id h5]

/-! Concrete inputs for the counterexamples and witnesses. -/

def mkManifest (nm : String) : Manifest :=
  { name := some (str nm), dependencies := none, devDependencies := none }

def mkManifestD (nm : String) (deps : Obj) : Manifest :=
  { name := some (str nm), dependencies := some deps, devDependencies := none }

def mkPkg (dn : String) (m : Manifest) : PkgEntry :=
  .pkgdir { dirName := str dn, manifest := some (.parsed m), src := none }

def c1wRoot : Manifest := mkManifest "old-root"

def c1wMA : Manifest := mkManifest "@scope/pkga"

def c1wMB : Manifest := mkManifest "@scope/pkgb"

def c1wDA : PkgDir := { dirName := str "a", manifest := some (.parsed c1wMA), src := none }

def c1wDB : PkgDir := { dirName := str "b", manifest := some (.parsed c1wMB), src := none }

def c1wFs : FS :=
  { rootPkg := some (.parsed c1wRoot)
    packages := some [.pkgdir c1wDA, .pkgdir c1wDB]
    readme := none
    frontendHtml := none }

/-- Witness for C1 at a two-package tree scoped `@scope`, renamed to
`newname`. -/
theorem c1_witness :
    (renameProject c1wFs (str "newname")).1.rootPkg =
      some (.parsed { c1wRoot with name := some (str "newname") }) ∧
    pkgNameAt (renameProject c1wFs (str "newname")).1 0 =
      some (str "@" ++ str "newname" ++ str "/" ++ str "pkga") ∧
    pkgNameAt (renameProject c1wFs (str "newname")).1 1 =
      some (str "@" ++ str "newname" ++ str "/" ++ str "pkgb") :=
  c1_rename_scoped_packages_and_root c1wFs (str "newname") (str "@scope")
    [.pkgdir c1wDA, .pkgdir c1wDB] 0 1 c1wDA c1wDB c1wMA c1wMB
    (str "pkga") (str "pkgb") c1wRoot (by decide) (by decide) (by decide) (by decide)
    (by decide) (by decide) (by decide) (by decide) (by decide) (by decide)

def c2exFs : FS :=
  { rootPkg := none
    packages := some [mkPkg "p" (mkManifestD "@old/p" [(str "@old/q", str "1.0.0")])]
    readme := none
    frontendHtml := none }

/-- C2 counterexample: the first run rekeys the scoped dependency to
`@newname/q`; the second run, whose detected token now equals the new
token, deletes that key — so the second run does change file contents. -/
theorem c2_counterexample :
    (renameProject c2exFs (str "newname")).2 = false ∧
    firstPkgDeps (renameProject c2exFs (str "newname")).1 =
      some [(str "@newname/q", str "1.0.0")] ∧
    (renameProject (renameProject c2exFs (str "newname")).1 (str "newname")).2 =
      false ∧
    firstPkgDeps (renameProject (renameProject c2exFs (str "newname")).1
      (str "newname")).1 = some [] := by decide

def c2wFs0 : FS :=
  { rootPkg := some (.parsed (mkManifest "oldroot"))
    packages := some [mkPkg "p" (mkManifest "@old/p")]
    readme := some (str "hello")
    frontendHtml := none }

def c2wFs1 : FS :=
  { rootPkg := some (.parsed (mkManifest "newname"))
    packages := some [mkPkg "p" (mkManifest "@newname/p")]
    readme := some (str "hello")
    frontendHtml := none }

/-- Witness for the amended C2 on a tree with no scoped dependency keys. -/
theorem c2_witness :
    renameProject c2wFs0 (str "newname") = (c2wFs1, false) ∧
    renameProject c2wFs1 (str "newname") = (c2wFs1, false) :=
  ⟨by decide, c2_second_run_is_identity c2wFs0 c2wFs1 (str "newname") (by decide)
    (by decide) (by decide) (by decide) (by decide)⟩

def c3exFs : FS :=
  { rootPkg := none
    packages := some [mkPkg "p1" (mkManifestD "@a/p1"
      [(str "@a/x", str "1.0.0"), (str "@b/x", str "2.0.0")])]
    readme := none
    frontendHtml := none }

/-- C3 counterexample: renaming scope `@a` to `@b` rekeys `@a/x` onto the
existing key `@b/x`, overwriting its value `2.0.0` with `1.0.0`: a key
that does not begin with the old scope token is not left untouched. -/
theorem c3_counterexample :
    firstPkgDeps c3exFs = some [(str "@a/x", str "1.0.0"), (str "@b/x", str "2.0.0")] ∧
    (str "@a/").isPrefixOf (str "@b/x") = false ∧
    (renameProject c3exFs (str "b")).2 = false ∧
    firstPkgDeps (renameProject c3exFs (str "b")).1 =
      some [(str "@b/x", str "1.0.0")] := by decide

def c3wDeps : Obj := [(str "@s/x", str "1.0.0"), (str "plain", str "2.0.0")]

def c3wDevDeps : Obj := [(str "@s/y", str "3.0.0")]

def c3wM : Manifest :=
  { name := some (str "@s/p")
    dependencies := some c3wDeps
    devDependencies := some c3wDevDeps }

def c3wD : PkgDir := { dirName := str "p", manifest := some (.parsed c3wM), src := none }

def c3wFs : FS :=
  { rootPkg := none
    packages := some [.pkgdir c3wD]
    readme := none
    frontendHtml := none }

/-- Witness for the amended C3 on a collision-free dependency map. -/
theorem c3_witness :
    pkgDepsAt (renameProject c3wFs (str "newname")).1 0 =
      some ((c3wDeps.filter fun kv => !((str "@s" ++ str "/").isPrefixOf kv.1)) ++
        ((c3wDeps.filter fun kv => (str "@s" ++ str "/").isPrefixOf kv.1).map
          (rk (str "@s" ++ str "/") (str "@" ++ str "newname" ++ str "/")))) ∧
    pkgDevDepsAt (renameProject c3wFs (str "newname")).1 0 =
      some ((c3wDevDeps.filter fun kv => !((str "@s" ++ str "/").isPrefixOf kv.1)) ++
        ((c3wDevDeps.filter fun kv => (str "@s" ++ str "/").isPrefixOf kv.1).map
          (rk (str "@s" ++ str "/") (str "@" ++ str "newname" ++ str "/")))) :=
  c3_dependency_rekeying c3wFs (str "newname") (str "@s") [.pkgdir c3wD] 0 c3wD c3wM
    (str "@s/p") c3wDeps c3wDevDeps (by decide) (by decide) (by decide) (by decide)
    (by decide) (by decide) (by decide) (by decide) (by decide) (by decide)
    (by decide) (by decide)

def c4exFs : FS :=
  { rootPkg := none
    packages := some [mkPkg "a" (mkManifest "@s/a"),
      .pkgdir { dirName := str "bad", manifest := some .bad, src := none },
      mkPkg "c" (mkManifest "@s/c")]
    readme := none
    frontendHtml := none }

/-- C4 counterexample: with packages `a`, `bad` (unparsable), `c`, the run
throws, `a` is renamed but `c` keeps its old name `@s/c`: the parse
failure did not merely skip `bad` while updating the others. -/
theorem c4_counterexample :
    (renameProject c4exFs (str "newname")).2 = true ∧
    pkgNameAt (renameProject c4exFs (str "newname")).1 0 =
      some (str "@newname/a") ∧
    pkgNameAt (renameProject c4exFs (str "newname")).1 2 =
      some (str "@s/c") := by decide

def c4wA : PkgEntry := mkPkg "a" (mkManifest "@s/a")

def c4wA2 : PkgEntry := mkPkg "a" (mkManifest "@newname/a")

def c4wBD : PkgDir := { dirName := str "bad", manifest := some .bad, src := none }

def c4wC : PkgEntry := mkPkg "c" (mkManifest "@s/c")

def c4wFs : FS :=
  { rootPkg := none
    packages := some [c4wA, .pkgdir c4wBD, c4wC]
    readme := none
    frontendHtml := none }

/-- Witness for the amended C4 at the same three-package tree. -/
theorem c4_witness :
    renameProject c4wFs (str "newname") =
      ({ c4wFs with rootPkg := none, packages := some ([c4wA2] ++ .pkgdir c4wBD :: [c4wC]) }, true) :=
  c4_parse_failure_aborts c4wFs (str "newname") (str "@s") [c4wA] [c4wC] [c4wA2]
    c4wBD none (by decide) (by decide) (by decide) (by decide) (by decide)

def c5wTree : List FTree :=
  [.file (str "a.ts") (str "import @old/a and modern-fullstack-boilerplate"),
   .dir (str "sub") [.file (str "b.js") (str "only modern-fullstack-boilerplate")],
   .file (str "notes.txt") (str "@old/a stays because of the extension")]

/-- Witness for C5 at a small tree and three concrete files, one of which
contains only the boilerplate identifier and no scope token. -/
theorem c5_witness :
    getFilesList (str "p/src")
        (rewriteTrees (str "@old/") (str "@new/") (str "newname") (str "p/src")
          c5wTree) =
      (getFilesList (str "p/src") c5wTree).map (fun pc =>
        (pc.1, rewriteSrcFile (str "@old/") (str "@new/") (str "newname")
          pc.1 pc.2)) ∧
    rewriteSrcFile (str "@old/") (str "@new/") (str "newname") (str "x.ts")
        (str "see @old/a") =
      (if hasSub mfb (replAll (str "@old/") (str "@new/") (str "see @old/a")) = true
        then replAll mfb (str "newname")
          (replAll (str "@old/") (str "@new/") (str "see @old/a"))
        else replAll (str "@old/") (str "@new/") (str "see @old/a")) ∧
    (rewriteSrcFile (str "@old/") (str "@new/") (str "newname") (str "z.tsx")
        (str "uses modern-fullstack-boilerplate only") =
      replAll mfb (str "newname") (str "uses modern-fullstack-boilerplate only") ∧
      srcWritten (str "@old/") (str "@new/")
        (str "uses modern-fullstack-boilerplate only") = true) ∧
    (rewriteSrcFile (str "@old/") (str "@new/") (str "newname") (str "y.js")
        (str "plain text") = str "plain text" ∧
      srcWritten (str "@old/") (str "@new/") (str "plain text") = false) :=
  ⟨(c5_source_file_rewrite (str "@old/") (str "@new/") (str "newname")
      (str "p/src") c5wTree).1,
    (c5_source_file_rewrite (str "@old/") (str "@new/") (str "newname")
      (str "p/src") c5wTree).2.1 (str "x.ts") (str "see @old/a") (by decide)
      (by decide),
    (c5_source_file_rewrite (str "@old/") (str "@new/") (str "newname")
      (str "p/src") c5wTree).2.2.1 (str "z.tsx")
      (str "uses modern-fullstack-boilerplate only") (by decide) (by decide)
      (by decide),
    (c5_source_file_rewrite (str "@old/") (str "@new/") (str "newname")
      (str "p/src") c5wTree).2.2.2 (str "y.js") (str "plain text") (by decide)
      (by decide)⟩

def c6wPre : List PkgEntry :=
  [.plainFile (str "stray.txt"), mkPkg "u" (mkManifest "unscoped")]

def c6wM : Manifest := mkManifest "@sc/pkg"

def c6wD : PkgDir := { dirName := str "s", manifest := some (.parsed c6wM), src := none }

def c6wPost : List PkgEntry :=
  [.pkgdir { dirName := str "bad", manifest := some .bad, src := none }]

/-- Witness for C6: the first scoped entry decides the scope even with an
unparsable manifest after it; an all-unscoped listing yields `@repo`. -/
theorem c6_witness :
    detectScope (some (c6wPre ++ .pkgdir c6wD :: c6wPost)) =
      .ok (takeBefore '/' (str "@sc/pkg")) ∧
    detectScope (some c6wPre) = .ok (str "@repo") :=
  ⟨(c6_scope_detection c6wPre c6wPost c6wD c6wM (str "@sc/pkg")).1 (by decide)
      (by decide) (by decide) (by decide),
    (c6_scope_detection c6wPre c6wPost c6wD c6wM (str "@sc/pkg")).2 (by decide)⟩

def c7exFs : FS :=
  { rootPkg := none
    packages := some [mkPkg "p" (mkManifestD "pkga" [(str "@repo/util", str "1.0.0")])]
    readme := none
    frontendHtml := none }

/-- C7 counterexample: no sub-package has a scoped name, yet the fallback
token `@repo/` matches the dependency key `@repo/util`, which the run
rekeys to `@newname/util`: the per-package scope replacement is not
skipped. -/
theorem c7_counterexample :
    detectScope c7exFs.packages = .ok (str "@repo") ∧
    (renameProject c7exFs (str "newname")).2 = false ∧
    firstPkgDeps c7exFs = some [(str "@repo/util", str "1.0.0")] ∧
    firstPkgDeps (renameProject c7exFs (str "newname")).1 =
      some [(str "@newname/util", str "1.0.0")] := by decide

def c7wFs : FS :=
  { rootPkg := some (.parsed (mkManifest "rootpkg"))
    packages := some [mkPkg "p" (mkManifestD "pkga" [(str "xlib", str "1.0.0")])]
    readme := none
    frontendHtml := none }

/-- Witness for the amended C7 on a tree with no scoped names and no
`@repo/` dependency keys. -/
theorem c7_witness :
    detectScope c7wFs.packages = .ok (str "@repo") ∧
    (renameProject c7wFs (str "newname")).2 = false ∧
    pkgNameAt (renameProject c7wFs (str "newname")).1 0 = pkgNameAt c7wFs 0 ∧
    pkgDepsAt (renameProject c7wFs (str "newname")).1 0 = pkgDepsAt c7wFs 0 ∧
    pkgDevDepsAt (renameProject c7wFs (str "newname")).1 0 =
      pkgDevDepsAt c7wFs 0 := by
  have T := c7_fallback_scope_skips_scoped_renaming c7wFs (str "newname")
    [mkPkg "p" (mkManifestD "pkga" [(str "xlib", str "1.0.0")])] (by decide)
    (by decide) (by decide) (by decide)
  exact ⟨T.1, T.2.1, (T.2.2 0).1, (T.2.2 0).2.1, (T.2.2 0).2.2⟩

def c8wFs : FS :=
  { rootPkg := none
    packages := none
    readme := none
    frontendHtml := none }

/-- Witness for C8 at a minimal tree on which both passes succeed. -/
theorem c8_witness :
    renameCmdTrace c8wFs (str "newname") =
      [.renameCall (str "newname"), .reportSuccess, .renameCall (str "newname"),
        .reportSuccess, .relocateStep] ∧
    (renameCmdTrace c8wFs (str "newname")).count
      (.renameCall (str "newname")) = 2 :=
  c8_command_invokes_rename_twice c8wFs (str "newname") (by decide) (by decide)

def c9wM : Manifest :=
  { name := some (str "@newname/p")
    dependencies := some [(str "@newname/q", str "1.0.0"), (str "zlib", str "2.0.0")]
    devDependencies := some [(str "@newname/r", str "3.0.0")] }

def c9wD : PkgDir := { dirName := str "p", manifest := some (.parsed c9wM), src := none }

def c9wFs : FS :=
  { rootPkg := none
    packages := some [.pkgdir c9wD]
    readme := none
    frontendHtml := none }

/-- Witness for C9: renaming to the name the packages already carry deletes
the `@newname/`-scoped dependency keys and keeps the rest. -/
theorem c9_witness :
    pkgDepsAt (renameProject c9wFs (str "newname")).1 0 =
      (c9wM.dependencies).map (List.filter fun kv =>
        !((str "@" ++ str "newname" ++ str "/").isPrefixOf kv.1)) ∧
    pkgDevDepsAt (renameProject c9wFs (str "newname")).1 0 =
      (c9wM.devDependencies).map (List.filter fun kv =>
        !((str "@" ++ str "newname" ++ str "/").isPrefixOf kv.1)) :=
  c9_same_token_deletes_scoped_deps c9wFs (str "newname") [.pkgdir c9wD] 0 c9wD c9wM
    (str "@newname/p") (by decide) (by decide) (by decide) (by decide) (by decide)
    (by decide)

def c10wBadM : Manifest :=
  { name := none, dependencies := none, devDependencies := none }

def c10wBadD : PkgDir :=
  { dirName := str "x", manifest := some (.parsed c10wBadM), src := none }

def c10wFsA : FS :=
  { rootPkg := none
    packages := some [.pkgdir c10wBadD]
    readme := none
    frontendHtml := none }

def c10wA : PkgEntry := mkPkg "a" (mkManifest "@s/a")

def c10wA2 : PkgEntry := mkPkg "a" (mkManifest "@newname/a")

def c10wC : PkgEntry := mkPkg "c" (mkManifest "@s/c")

def c10wFsB : FS :=
  { rootPkg := none
    packages := some [c10wA, .pkgdir c10wBadD, c10wC]
    readme := none
    frontendHtml := none }

/-- Witness for C10 in both phases: a nameless manifest reached during
detection leaves the tree untouched; one reached during the package pass
keeps only the earlier updates. -/
theorem c10_witness :
    renameProject c10wFsA (str "newname") = (c10wFsA, true) ∧
    renameProject c10wFsB (str "newname") =
      ({ c10wFsB with rootPkg := none, packages := some ([c10wA2] ++ .pkgdir c10wBadD :: [c10wC]) }, true) :=
  ⟨(c10_missing_name_field_throws c10wFsA (str "newname") (str "@repo") [] []
      [] c10wBadD c10wBadM none).1 (by decide) (by decide) (by decide) (by decide),
    (c10_missing_name_field_throws c10wFsB (str "newname") (str "@s") [c10wA]
      [c10wC] [c10wA2] c10wBadD c10wBadM none).2 (by decide) (by decide)
      (by decide) (by decide) (by decide) (by decide)⟩

end ModernCli
